import Mathlib

/-!
# Block assembly and commit pipeline

A shallow embedding of `services/blockchain.go` and `models/block.go`.

Modelling conventions.

* Blocks live behind pointers (`*models.Block`).  The process memory that holds
  them is the list `heap`; a pointer is an index into it.  `LatestBlock` is an
  optional pointer and `Blocks` a list of pointers, as in the Go struct.
* A Go `map[string]interface{}` is an association list.  For a payload the list
  order is the order in which the `range` loop visits the entries (Go leaves
  that order unspecified, so every order is a possible run).
* A run-time panic (failed type assertion) is the result `none`.
* `float64` values are IEEE-754 bit patterns; only `==` is needed.
* `encoding/json` and `crypto/sha256` are not part of the repository; they are
  the fields of `Library`.  `encoding/hex` is modelled concretely.
* `time.Now()` is an input of each call.
* The `int` fields `BlockNumber` and `BlockSize` are natural numbers: the code
  assigns them only `len(bc.Blocks) + 1` and `3`.
* LevelDB is a map from keys to stored bytes; `Get` fails exactly when the
  lookup returns `none`, and `Put` (whose error the code ignores) succeeds.
* The unbuffered `BlockChannel` is recorded as the list of pointers sent; its
  single consumer receives them in that order.
* `ledger.txt` is, for the writer, the bytes appended so far, and for the
  reader the sequence of records that the `json.Decoder` meets.  A record
  decodes to a block, or makes `Decode` fail, or begins with a closing brace
  or bracket; `decoder.More()` is false at the end of the input and at a
  record of the last kind.  A nil slice is `none`.
-/

namespace GoBlockchain

/-- Byte strings (`[]byte`), one natural number per byte. -/
abbrev Bytes := List Nat

/-- Go `float64`, given by its IEEE-754 bit pattern (taken modulo `2^64`). -/
structure Float64 where
  bits : Nat
deriving DecidableEq, Repr

namespace Float64

/-- The eleven exponent bits. -/
def expField (f : Float64) : Nat := (f.bits / 2 ^ 52) % 2 ^ 11

/-- The fifty-two fraction bits. -/
def fracField (f : Float64) : Nat := f.bits % 2 ^ 52

/-- Not-a-number: all exponent bits set and a non-zero fraction. -/
def isNaN (f : Float64) : Bool := f.expField == 2047 && f.fracField != 0

/-- Positive or negative zero. -/
def isZero (f : Float64) : Bool := f.bits % 2 ^ 63 == 0

/-- Go `==` on `float64`: false when either side is NaN, zeros of both signs
are equal, otherwise equality of bit patterns. -/
def eq (a b : Float64) : Bool :=
  !a.isNaN && !b.isNaN && (a.bits % 2 ^ 64 == b.bits % 2 ^ 64 || (a.isZero && b.isZero))

end Float64

/-- Dynamic values held in an `interface{}`. -/
inductive Value where
  | null
  | float64 (f : Float64)
  | int (i : Int)
  | string (s : String)
  | bool (b : Bool)
  | map (m : List (String × Value))
  | slice (l : List Value)

/-- Go `map[string]interface{}`. -/
abbrev GoMap := List (String × Value)

/-- The type assertion `v.(map[string]interface{})`; `none` is the panic. -/
def assertMap : Value → Option GoMap
  | Value.map m => some m
  | _ => none

/-- The type assertion `m[k].(float64)` on the result of a map index, which is
the nil interface when the key is missing; `none` is the panic. -/
def assertFloat64 : Option Value → Option Float64
  | some (Value.float64 f) => some f
  | _ => none

/-- `time.Time`, as a count of clock ticks. -/
abbrev Time := Nat

/-- `models.BlockStatus`: `Committed` is `iota` 0 and `Pending` is 1. -/
inductive BlockStatus where
  | Committed
  | Pending
deriving DecidableEq, Repr

/-- `models.Transaction`. -/
structure Transaction where
  ID : String
  TxData : GoMap
  Valid : Bool
  Version : Float64

/-- `models.Block`. -/
structure Block where
  BlockNumber : Nat
  Transactions : List Transaction
  Timestamp : Time
  Status : BlockStatus
  PrevBlockHash : String
  BlockHash : String
  BlockSize : Nat

/-- The library functions the code calls with their errors ignored:
`json.Marshal` of a map and of a block (empty output on error),
`json.Unmarshal` into a nil `map[string]interface{}` (the map as it stands
after the call), and the SHA-256 digest. -/
structure Library where
  jsonMarshalMap : GoMap → Bytes
  jsonMarshalBlock : Block → Bytes
  jsonUnmarshalMap : Bytes → GoMap
  sha256Sum : Bytes → Bytes

/-- One lower-case hexadecimal digit. -/
def hexDigit (n : Nat) : Char :=
  "0123456789abcdef".toList.getD (n % 16) '0'

/-- Characters of `hex.EncodeToString`: two digits per byte. -/
def hexChars : Bytes → List Char
  | [] => []
  | b :: rest => hexDigit (b / 16) :: hexDigit b :: hexChars rest

/-- `hex.EncodeToString`. -/
def EncodeToString (bs : Bytes) : String := String.mk (hexChars bs)

/-- `models.GenerateTxnID`. -/
def GenerateTxnID (L : Library) (txn : GoMap) : String :=
  EncodeToString (L.sha256Sum (L.jsonMarshalMap txn))

/-- `models.CalculateBlockHash`. -/
def CalculateBlockHash (L : Library) (block : Block) : String :=
  EncodeToString (L.sha256Sum (L.jsonMarshalBlock block))

/-- Contents of the LevelDB instance: `db.Get` on a key. -/
abbrev Store := String → Option Bytes

/-- `db.Put(key, value)`. -/
def Store.put (db : Store) (key : String) (value : Bytes) : Store :=
  fun k => if k = key then some value else db k

/-- `services.Blockchain`, together with the memory its pointers refer to and
the history of the global `BlockChannel`. -/
structure Blockchain where
  heap : List Block
  LatestBlock : Option Nat
  Blocks : List Nat
  db : Store
  BlockChannel : List Nat

/-- The blocks of the chain, in the order of `Blocks`. -/
def chain (bc : Blockchain) : List Block :=
  bc.Blocks.filterMap (fun p => bc.heap[p]?)

/-- The state `main` starts from: no latest block, no blocks. -/
def emptyBlockchain (db : Store) : Blockchain :=
  { heap := [], LatestBlock := none, Blocks := [], db := db, BlockChannel := [] }

/-- `Blockchain.CreateNewBlock`.  The result is `none` only for a pointer
outside the memory, which no Go state has. -/
def CreateNewBlock (bc : Blockchain) (now : Time) : Option Block :=
  let mk : String → Block := fun prevHash =>
    { BlockNumber := bc.Blocks.length + 1
      Transactions := []
      Timestamp := now
      Status := BlockStatus.Pending
      PrevBlockHash := prevHash
      BlockHash := ""
      BlockSize := 3 }
  match bc.LatestBlock with
  | some p =>
    match bc.heap[p]? with
    | some latest => some (mk latest.BlockHash)
    | none => none
  | none => some (mk "0x000")

/-- The verdict of the store check in `PushValidTransaction` (lines 95-108):
`none` is the panic of `storedData["ver"].(float64)`. -/
def storeVerdict (L : Library) (db : Store) (key : String) (ver : Float64) : Option Bool :=
  match db key with
  | none => some false
  | some dbValue =>
    match assertFloat64 ((L.jsonUnmarshalMap dbValue).lookup "ver") with
    | some storedVersion => some (Float64.eq storedVersion ver)
    | none => none

/-- One iteration of the `range` loop of `PushValidTransaction`. -/
def pushEntry (L : Library) (txn : GoMap) (db : Store) (b : Block) (kv : String × Value) :
    Option Block :=
  match assertMap kv.2 with
  | none => none
  | some txMap =>
    match assertFloat64 (txMap.lookup "ver") with
    | none => none
    | some ver =>
      match storeVerdict L db kv.1 ver with
      | none => none
      | some valid =>
        some { b with Transactions := b.Transactions ++
          [{ ID := GenerateTxnID L txn, TxData := txMap, Valid := valid, Version := ver }] }

/-- The `range` loop of `PushValidTransaction` over the entries still to visit. -/
def pushLoop (L : Library) (txn : GoMap) (db : Store) : Block → List (String × Value) → Option Block
  | b, [] => some b
  | b, kv :: rest =>
    match pushEntry L txn db b kv with
    | none => none
    | some b1 => pushLoop L txn db b1 rest

/-- `Block.PushValidTransaction`. -/
def PushValidTransaction (L : Library) (b : Block) (txn : GoMap) (db : Store) : Option Block :=
  pushLoop L txn db b txn

/-- `Block.UpdateBlockStatus`. -/
def UpdateBlockStatus (b : Block) (status : BlockStatus) : Block :=
  { b with Status := status }

/-- The write-back loop of `CommitBlock` (lines 121-126). -/
def commitWrites (L : Library) : Store → List Transaction → Store
  | db, [] => db
  | db, txn :: rest =>
    commitWrites L (if txn.Valid then db.put txn.ID (L.jsonMarshalMap txn.TxData) else db) rest

/-- `Block.CommitBlock` on the block behind pointer `p`: the block, the store
and the channel history afterwards. -/
def CommitBlock (L : Library) (p : Nat) (b : Block) (db : Store) (ch : List Nat) :
    Block × Store × List Nat :=
  let b1 := UpdateBlockStatus b BlockStatus.Committed
  let b2 := { b1 with BlockHash := CalculateBlockHash L b1 }
  (b2, commitWrites L db b2.Transactions, ch ++ [p])

/-- The first statement of `AddTransaction` (lines 67-71). -/
def ensureBlock (bc : Blockchain) (now : Time) : Option Blockchain :=
  let fresh : Option Blockchain :=
    match CreateNewBlock bc now with
    | none => none
    | some newBlock =>
      some { bc with
        heap := bc.heap ++ [newBlock]
        LatestBlock := some bc.heap.length
        Blocks := bc.Blocks ++ [bc.heap.length] }
  match bc.LatestBlock with
  | none => fresh
  | some p =>
    match bc.heap[p]? with
    | none => none
    | some latest =>
      if latest.Transactions.length ≥ latest.BlockSize then fresh else some bc

/-- `Blockchain.AddTransaction`; `none` is a panic. -/
def AddTransaction (L : Library) (bc : Blockchain) (now : Time) (txn : GoMap) :
    Option Blockchain :=
  match ensureBlock bc now with
  | none => none
  | some bc1 =>
    match bc1.LatestBlock with
    | none => none
    | some p =>
      match bc1.heap[p]? with
      | none => none
      | some b =>
        match PushValidTransaction L b txn bc1.db with
        | none => none
        | some b1 =>
          if b1.Transactions.length ≥ b1.BlockSize then
            match CommitBlock L p b1 bc1.db bc1.BlockChannel with
            | (b2, db2, ch2) =>
              some { bc1 with heap := bc1.heap.set p b2, db := db2, BlockChannel := ch2 }
          else
            some { bc1 with heap := bc1.heap.set p b1 }

/-- A sequence of `AddTransaction` calls, each with its clock reading and its
payload; `none` as soon as one call panics. -/
def AddTransactions (L : Library) : Blockchain → List (Time × GoMap) → Option Blockchain
  | bc, [] => some bc
  | bc, call :: rest =>
    match AddTransaction L bc call.1 call.2 with
    | none => none
    | some bc1 => AddTransactions L bc1 rest

/-! ## Specification vocabulary -/

/-- The version recorded in the store under `key`: the lookup succeeds and the
stored value decodes to a map with a `float64` field `ver`. -/
def StoredVersion (L : Library) (db : Store) (key : String) (sv : Float64) : Prop :=
  ∃ dbValue, db key = some dbValue ∧
    assertFloat64 ((L.jsonUnmarshalMap dbValue).lookup "ver") = some sv

/-- An entry of a payload that the loop body processes without a panic: the
sub-payload is a map with a `float64` field `ver`, and the store either has no
value under the key or has one that decodes to a map with a `float64` `ver`. -/
def EntryOK (L : Library) (db : Store) (kv : String × Value) : Prop :=
  (∃ txMap ver, kv.2 = Value.map txMap ∧ assertFloat64 (txMap.lookup "ver") = some ver) ∧
  (db kv.1 = none ∨ ∃ sv, StoredVersion L db kv.1 sv)

/-- The record appended for the entry `kv` of payload `txn`. -/
def Recorded (L : Library) (txn : GoMap) (db : Store) (kv : String × Value) (tx : Transaction) :
    Prop :=
  kv.2 = Value.map tx.TxData ∧ assertFloat64 (tx.TxData.lookup "ver") = some tx.Version ∧
  storeVerdict L db kv.1 tx.Version = some tx.Valid ∧ tx.ID = GenerateTxnID L txn

/-- The block as `CommitBlock` leaves it. -/
def sealBlock (L : Library) (b : Block) : Block :=
  { UpdateBlockStatus b BlockStatus.Committed with
    BlockHash := CalculateBlockHash L (UpdateBlockStatus b BlockStatus.Committed) }

/-- The block `CreateNewBlock` builds as number `n + 1`. -/
def freshBlock (n : Nat) (prevHash : String) (now : Time) : Block :=
  { BlockNumber := n + 1
    Transactions := []
    Timestamp := now
    Status := BlockStatus.Pending
    PrevBlockHash := prevHash
    BlockHash := ""
    BlockSize := 3 }

/-- The previous-hash value for a block that follows the blocks `h`. -/
def prevHashOf (h : List Block) : String :=
  match h.getLast? with
  | some latest => latest.BlockHash
  | none => "0x000"

/-- Whether the block has status `Committed`. -/
def isCommitted (b : Block) : Bool := decide (b.Status = BlockStatus.Committed)

/-- The pointers of a chain built by `AddTransaction` alone: the blocks are the
whole memory in allocation order, and the latest block is the last one. -/
def Shape (bc : Blockchain) : Prop :=
  bc.Blocks = List.range bc.heap.length ∧
  bc.LatestBlock = (if bc.heap.length = 0 then none else some (bc.heap.length - 1))

/-- What holds of the block at position `i` (0-based) of the chain. -/
def BlockOK (L : Library) (i : Nat) (b : Block) : Prop :=
  b.BlockNumber = i + 1 ∧ b.BlockSize = 3 ∧
  (b.Status = BlockStatus.Committed ↔ b.BlockSize ≤ b.Transactions.length) ∧
  (b.Status = BlockStatus.Pending → b.BlockHash = "") ∧
  (b.Status = BlockStatus.Committed →
    b.BlockHash = CalculateBlockHash L { b with BlockHash := "" })

/-- The invariant of the block list: every block is well formed at its
position, every block but the last is committed, the first block carries the
genesis value and every later block the hash of its predecessor. -/
def Linked (L : Library) (h : List Block) : Prop :=
  (∀ i b, h[i]? = some b → BlockOK L i b) ∧
  (∀ i b, h[i]? = some b → i + 1 < h.length → b.Status = BlockStatus.Committed) ∧
  (∀ b, h[0]? = some b → b.PrevBlockHash = "0x000") ∧
  (∀ i a b, h[i]? = some a → h[i + 1]? = some b → b.PrevBlockHash = a.BlockHash)

/-- The invariant of the states reached from the empty chain. -/
def Inv (L : Library) (bc : Blockchain) : Prop :=
  Shape bc ∧ Linked L bc.heap ∧
  bc.BlockChannel = List.range (bc.heap.filter isCommitted).length

/-- How a completed call of `AddTransaction` with payload `txn` changes a state
reached from the empty chain: the memory is `pre` followed by the block `b` the
call works on (a fresh block when the old memory is `pre`, the old last block
otherwise), and the records `txs` of the payload are appended to `b`, which is
then committed if it is full. -/
def StepFacts (L : Library) (bc bc2 : Blockchain) (txn : GoMap) : Prop :=
  ∃ pre b txs,
    ((bc.heap = pre ∧ b.Transactions = [] ∧
        (∀ l, pre.getLast? = some l → l.BlockSize ≤ l.Transactions.length)) ∨
      bc.heap = pre ++ [b]) ∧
    (∀ c ∈ pre, c.Status = BlockStatus.Committed) ∧
    b.Status = BlockStatus.Pending ∧ b.BlockSize = 3 ∧ b.Transactions.length < 3 ∧
    List.Forall₂ (Recorded L txn bc.db) txn txs ∧
    ((3 ≤ (b.Transactions ++ txs).length ∧
        bc2.heap = pre ++ [sealBlock L { b with Transactions := b.Transactions ++ txs }] ∧
        bc2.db = commitWrites L bc.db (b.Transactions ++ txs) ∧
        bc2.BlockChannel = bc.BlockChannel ++ [pre.length]) ∨
      ((b.Transactions ++ txs).length < 3 ∧
        bc2.heap = pre ++ [{ b with Transactions := b.Transactions ++ txs }] ∧
        bc2.db = bc.db ∧ bc2.BlockChannel = bc.BlockChannel))

/-- The layout of `n` transactions that arrived one per call: full blocks of
three, followed by a last block with one to three transactions. -/
def Packed (n : Nat) (h : List Block) : Prop :=
  (h = [] ∧ n = 0) ∨
  ∃ pre last, h = pre ++ [last] ∧ (∀ c ∈ pre, c.Transactions.length = 3) ∧
    1 ≤ last.Transactions.length ∧ last.Transactions.length ≤ 3 ∧
    n = 3 * pre.length + last.Transactions.length

/-! ## Sample inputs -/

/-- A stand-in for `json.Marshal` of a map: a tag and the eight bytes of the
`ver` field when there is one, followed by the bytes of the keys. -/
def sampleMarshalMap (m : GoMap) : Bytes :=
  (match assertFloat64 (m.lookup "ver") with
   | some f => 1 :: (List.range 8).map (fun i => (f.bits / 256 ^ (7 - i)) % 256)
   | none => [0]) ++ m.flatMap (fun kv => kv.1.toList.map Char.toNat)

/-- A stand-in for `json.Unmarshal` into a map, reading back the `ver` field. -/
def sampleUnmarshalMap (d : Bytes) : GoMap :=
  match d with
  | 1 :: rest =>
    if 8 ≤ rest.length then
      [("ver", Value.float64 ⟨(rest.take 8).foldl (fun acc x => acc * 256 + x % 256) 0⟩)]
    else []
  | _ => []

/-- A stand-in for `json.Marshal` of a block. -/
def sampleMarshalBlock (b : Block) : Bytes :=
  [b.BlockNumber % 256, b.Transactions.length % 256, b.Timestamp % 256,
   (if b.Status = BlockStatus.Committed then 0 else 1),
   b.PrevBlockHash.length % 256, b.BlockHash.length % 256, b.BlockSize % 256]

/-- A stand-in for the SHA-256 digest: thirty-two bytes, the last a checksum. -/
def sampleSum (d : Bytes) : Bytes :=
  List.replicate 31 0 ++ [d.foldl (fun acc x => acc + x) 0 % 256]

/-- A library instance at which the theorems are instantiated on concrete
inputs.  It stands in for `encoding/json` and `crypto/sha256`. -/
def sampleLibrary : Library :=
  ⟨sampleMarshalMap, sampleMarshalBlock, sampleUnmarshalMap, sampleSum⟩

/-- The `float64` 1.0. -/
def f64One : Float64 := ⟨4607182418800017408⟩

/-- The `float64` 2.0. -/
def f64Two : Float64 := ⟨4611686018427387904⟩

/-- A store without entries. -/
def noStore : Store := fun _ => none

/-- A store that holds version 1.0 under `SIM1`, `SIM2` and `SIM3`. -/
def seededStore : Store := fun k =>
  if k = "SIM1" ∨ k = "SIM2" ∨ k = "SIM3" then
    some (sampleMarshalMap [("val", Value.float64 f64One), ("ver", Value.float64 f64One)])
  else none

/-- A payload with the single entry `key`, declaring version `v`. -/
def singlePayload (key : String) (v : Float64) : GoMap :=
  [(key, Value.map [("val", Value.int 1), ("ver", Value.float64 v)])]

/-- A payload that bundles four sub-transactions under distinct keys. -/
def fourEntries : GoMap :=
  [("SIM1", Value.map [("ver", Value.float64 f64One)]),
   ("SIM2", Value.map [("ver", Value.float64 f64One)]),
   ("SIM3", Value.map [("ver", Value.float64 f64One)]),
   ("SIM4", Value.map [("ver", Value.float64 f64One)])]

/-- A payload whose sub-payload is a string, not a map. -/
def badPayload : GoMap := [("SIM1", Value.string "ver 1.0")]

/-- A payload whose sub-payload is a map without a `ver` field. -/
def noVerPayload : GoMap := [("SIM1", Value.map [("val", Value.float64 f64One)])]

/-- Four calls with single-entry payloads: a match, a version mismatch, a
missing key and a match. -/
def sampleCalls : List (Time × GoMap) :=
  [(1, singlePayload "SIM1" f64One), (2, singlePayload "SIM2" f64Two),
   (3, singlePayload "SIM9" f64One), (4, singlePayload "SIM3" f64One)]

/-- Two further calls, which fill the second block. -/
def sampleMore : List (Time × GoMap) :=
  [(5, singlePayload "SIM1" f64One), (6, singlePayload "SIM2" f64One)]

/-- The state after `sampleCalls` on the empty chain over `seededStore`. -/
def sampleState : Blockchain :=
  (AddTransactions sampleLibrary (emptyBlockchain seededStore) sampleCalls).getD
    (emptyBlockchain seededStore)

/-- The state after `sampleMore` on `sampleState`. -/
def sampleLater : Blockchain :=
  (AddTransactions sampleLibrary sampleState sampleMore).getD (emptyBlockchain seededStore)

/-- The state after the first two of `sampleCalls`. -/
def sampleTwo : Blockchain :=
  (AddTransactions sampleLibrary (emptyBlockchain seededStore) (sampleCalls.take 2)).getD
    (emptyBlockchain seededStore)

/-- The state after the third of `sampleCalls`, which commits the first block. -/
def sampleThree : Blockchain :=
  (AddTransaction sampleLibrary sampleTwo 3 (singlePayload "SIM9" f64One)).getD
    (emptyBlockchain seededStore)

/-- The call that takes `bc` to `bc2` at clock reading `now` appends the records
`txs`, in this order, to the end of the latest block (the block that is latest
once the call has made sure there is a block with room), whose earlier records
stay as they are. -/
def Appends (bc bc2 : Blockchain) (now : Time) (txs : List Transaction) : Prop :=
  ∃ bc1 p b blk, ensureBlock bc now = some bc1 ∧ bc1.LatestBlock = some p ∧
    bc1.heap[p]? = some b ∧ bc2.LatestBlock = some p ∧ bc2.heap[p]? = some blk ∧
    blk.Transactions = b.Transactions ++ txs

/-- The condition under which `AddTransaction` starts a new block: there is no
latest block, or the latest block's transaction count has reached its size. -/
def NeedsBlock (bc : Blockchain) : Prop :=
  bc.LatestBlock = none ∨
  ∃ p latest, bc.LatestBlock = some p ∧ bc.heap[p]? = some latest ∧
    latest.BlockSize ≤ latest.Transactions.length

/-- The latest block exists and has room. -/
def HasRoom (bc : Blockchain) : Prop :=
  ∃ p latest, bc.LatestBlock = some p ∧ bc.heap[p]? = some latest ∧
    latest.Transactions.length < latest.BlockSize

/-! ## Persistence and the ledger reader -/

/-- The blocks behind the pointers sent on `BlockChannel`, in the order sent,
which is the order in which the single consumer receives them. -/
def sentBlocks (bc : Blockchain) : List Block :=
  bc.BlockChannel.filterMap (fun p => bc.heap[p]?)

/-- `WriteBlockToFile` on the contents of `ledger.txt`: one serialized block
and a newline are appended.  With `ok = false` the file cannot be opened; the
code prints the error and returns, and the ledger is unchanged.  A write that
fails part-way is not modelled. -/
def WriteBlockToFile (L : Library) (ledger : Bytes) (block : Block) (ok : Bool) : Bytes :=
  if ok then ledger ++ (L.jsonMarshalBlock block ++ [10]) else ledger

/-- `ListenForBlocks` over the blocks received from `BlockChannel`, each with
the outcome of opening the file for it. -/
def ListenForBlocks (L : Library) : Bytes → List (Block × Bool) → Bytes
  | ledger, [] => ledger
  | ledger, received :: rest =>
    ListenForBlocks L (WriteBlockToFile L ledger received.1 received.2) rest

/-- One record of `ledger.txt` as the `json.Decoder` meets it: it decodes to a
block; or `Decode` returns an error on it (`malformed`); or its first byte
after white space is `}` or `]` (`closer`), where `decoder.More()` is false and
the loop ends without a call of `Decode`. -/
inductive LogRecord where
  | block (b : Block)
  | malformed
  | closer

/-- The decoding loop of `FetchBlockDetails` over the records still unread;
`none` is the nil pointer. -/
def fetchLoop (blockNumber : Nat) : List LogRecord → Option Block
  | [] => none
  | LogRecord.closer :: _ => none
  | LogRecord.malformed :: _ => none
  | LogRecord.block b :: rest =>
    if b.BlockNumber = blockNumber then some b else fetchLoop blockNumber rest

/-- `FetchBlockDetails`; the ledger is `none` when `ledger.txt` cannot be
opened. -/
def FetchBlockDetails (ledger : Option (List LogRecord)) (blockNumber : Nat) : Option Block :=
  match ledger with
  | none => none
  | some records => fetchLoop blockNumber records

/-- The decoding loop of `FetchAllBlocks`; the slice `blocks` is `none` while
it is nil. -/
def fetchAllLoop : Option (List Block) → List LogRecord → Option (List Block)
  | blocks, [] => blocks
  | blocks, LogRecord.closer :: _ => blocks
  | _, LogRecord.malformed :: _ => none
  | blocks, LogRecord.block b :: rest => fetchAllLoop (some (blocks.getD [] ++ [b])) rest

/-- `FetchAllBlocks`; the result `none` is the nil slice. -/
def FetchAllBlocks (ledger : Option (List LogRecord)) : Option (List Block) :=
  match ledger with
  | none => none
  | some records => fetchAllLoop none records

/-- The elements of a slice; the nil slice has none. -/
def sliceElems (blocks : Option (List Block)) : List Block := blocks.getD []

/-! ## The seeded store and the ten-transaction scenario -/

/-- The key `fmt.Sprintf("SIM%d", i)`. -/
def simKey (i : Nat) : String := "SIM" ++ toString i

/-- The value `InitializeLevelDB` stores under `SIM<i>`. -/
def seedValue (i : Nat) : GoMap := [("val", Value.int i), ("ver", Value.float64 f64One)]

/-- The loop of `InitializeLevelDB` over the indices still to write. -/
def seedLoop (L : Library) : Store → List Nat → Store
  | db, [] => db
  | db, i :: rest => seedLoop L (db.put (simKey i) (L.jsonMarshalMap (seedValue i))) rest

/-- `InitializeLevelDB` on the contents `disk` of the database directory. -/
def InitializeLevelDB (L : Library) (disk : Store) : Store :=
  seedLoop L disk (List.range' 1 1000)

/-- The ten calls of the scenario: single-entry payloads keyed `SIM1` to
`SIM10` in order, each declaring version 1.0, at the clock readings `clock`. -/
def scenarioCalls (clock : Nat → Time) : List (Time × GoMap) :=
  (List.range' 1 10).map (fun i =>
    (clock i, [(simKey i, Value.map [("val", Value.int i), ("ver", Value.float64 f64One)])]))

/-- A store that holds version 1.0 under `SIM1` to `SIM10`, for `sampleLibrary`. -/
def scenarioStore : Store := seedLoop sampleLibrary noStore (List.range' 1 10)

/-- A stand-in for `json.Marshal` of a block that writes out both hashes:
the length and the characters of `PrevBlockHash`, then those of `BlockHash`,
then the other fields. -/
def verboseMarshalBlock (b : Block) : Bytes :=
  (b.PrevBlockHash.length :: b.PrevBlockHash.data.map Char.toNat) ++
  ((b.BlockHash.length :: b.BlockHash.data.map Char.toNat) ++
   [b.BlockNumber, b.Transactions.length, b.Timestamp,
    (if b.Status = BlockStatus.Committed then 0 else 1), b.BlockSize])

/-- The sample library with `verboseMarshalBlock` for blocks. -/
def verboseLibrary : Library :=
  ⟨sampleMarshalMap, verboseMarshalBlock, sampleUnmarshalMap, sampleSum⟩

/-- The state after `sampleCalls` on the empty chain, with `verboseLibrary`. -/
def verboseState : Blockchain :=
  (AddTransactions verboseLibrary (emptyBlockchain seededStore) sampleCalls).getD
    (emptyBlockchain seededStore)

/-- A `float64` NaN (the quiet NaN `0x7FF8000000000000`). -/
def f64NaN : Float64 := ⟨9221120237041090560⟩

/-- A stand-in for `json.Marshal` of a block with its error dropped, as
`CalculateBlockHash` calls it: `json.Marshal` rejects a NaN `float64`, so a
block with a transaction whose version is NaN gives no output; any other block
is serialized by `verboseMarshalBlock`. -/
def strictMarshalBlock (b : Block) : Bytes :=
  if b.Transactions.any (fun t => t.Version.isNaN) then [] else verboseMarshalBlock b

/-- The sample library with `strictMarshalBlock` for blocks. -/
def strictLibrary : Library :=
  ⟨sampleMarshalMap, strictMarshalBlock, sampleUnmarshalMap, sampleSum⟩

/-- Reads the `PrevBlockHash` field back from an output of `verboseMarshalBlock`. -/
def readPrevBlockHash (d : Bytes) : String :=
  String.mk (((d.drop 1).take (d.headD 0)).map Char.ofNat)

/-- Three calls whose payloads declare a NaN version under a key the store
does not hold. -/
def nanCalls : List (Time × GoMap) :=
  [(1, singlePayload "SIM9" f64NaN), (2, singlePayload "SIM9" f64NaN),
   (3, singlePayload "SIM9" f64NaN)]

/-- The state after `nanCalls` on the empty chain, with `strictLibrary`. -/
def nanState : Blockchain :=
  (AddTransactions strictLibrary (emptyBlockchain seededStore) nanCalls).getD
    (emptyBlockchain seededStore)

/-- The state after `sampleCalls` on the empty chain, with `strictLibrary`. -/
def strictState : Blockchain :=
  (AddTransactions strictLibrary (emptyBlockchain seededStore) sampleCalls).getD
    (emptyBlockchain seededStore)

/-- The state after the first two of `sampleCalls`, with `strictLibrary`. -/
def strictTwo : Blockchain :=
  (AddTransactions strictLibrary (emptyBlockchain seededStore) (sampleCalls.take 2)).getD
    (emptyBlockchain seededStore)

/-- A ledger whose first record is block 1 and whose second is malformed. -/
def tornLedger : Option (List LogRecord) :=
  some [LogRecord.block (freshBlock 0 "0x000" 1), LogRecord.malformed]

/-- A ledger of three lines: block 1, a line that holds only a closing brace,
block 2. -/
def strayLedger : Option (List LogRecord) :=
  some [LogRecord.block (freshBlock 0 "0x000" 1), LogRecord.closer,
    LogRecord.block (freshBlock 1 "" 2)]

/-- A payload that bundles two sub-transactions under distinct keys. -/
def twoEntries : GoMap :=
  [("SIM1", Value.map [("ver", Value.float64 f64One)]),
   ("SIM2", Value.map [("ver", Value.float64 f64Two)])]

/-- The state after a call with `twoEntries` on the empty chain. -/
def pairFirst : Blockchain :=
  (AddTransaction sampleLibrary (emptyBlockchain seededStore) 7 twoEntries).getD
    (emptyBlockchain seededStore)

/-- The state after a call with `twoEntries` on `sampleState`. -/
def pairSecond : Blockchain :=
  (AddTransaction sampleLibrary sampleState 8 twoEntries).getD (emptyBlockchain seededStore)

/-! ## The loop of `PushValidTransaction` -/

theorem storeVerdict_true_iff (L : Library) (db : Store) (key : String) (ver : Float64) :
    storeVerdict L db key ver = some true ↔
      ∃ sv, StoredVersion L db key sv ∧ Float64.eq sv ver = true := by
  unfold storeVerdict StoredVersion
  cases hdb : db key with
  | none => simp
  | some dbValue =>
    cases hs : assertFloat64 ((L.jsonUnmarshalMap dbValue).lookup "ver") with
    | none => simp [hs]
    | some sv => simp [hs]

theorem storeVerdict_isSome (L : Library) (db : Store) (key : String) (ver : Float64)
    (h : db key = none ∨ ∃ sv, StoredVersion L db key sv) :
    ∃ valid, storeVerdict L db key ver = some valid := by
  unfold storeVerdict
  rcases h with h | ⟨sv, dbValue, hdb, hs⟩
  · exact ⟨false, by simp [h]⟩
  · exact ⟨Float64.eq sv ver, by simp [hdb, hs]⟩

theorem assertMap_some (v : Value) (m : GoMap) (h : assertMap v = some m) : v = Value.map m := by
  cases v <;> simp [assertMap] at h
  rw [h]

theorem pushEntry_some (L : Library) (txn : GoMap) (db : Store) (b b1 : Block)
    (kv : String × Value) (h : pushEntry L txn db b kv = some b1) :
    ∃ tx, Recorded L txn db kv tx ∧
      b1 = { b with Transactions := b.Transactions ++ [tx] } := by
  unfold pushEntry at h
  cases hm : assertMap kv.2 with
  | none => simp [hm] at h
  | some txMap =>
    cases hv : assertFloat64 (txMap.lookup "ver") with
    | none => simp [hm, hv] at h
    | some ver =>
      cases hs : storeVerdict L db kv.1 ver with
      | none => simp [hm, hv, hs] at h
      | some valid =>
        simp only [hm, hv, hs, Option.some.injEq] at h
        exact ⟨_, ⟨assertMap_some _ _ hm, hv, hs, rfl⟩, h.symm⟩

theorem pushEntry_total (L : Library) (txn : GoMap) (db : Store) (b : Block)
    (kv : String × Value) (h : EntryOK L db kv) :
    ∃ b1, pushEntry L txn db b kv = some b1 := by
  obtain ⟨⟨txMap, ver, hm, hv⟩, hdb⟩ := h
  obtain ⟨valid, hs⟩ := storeVerdict_isSome L db kv.1 ver hdb
  simp [pushEntry, hm, assertMap, hv, hs]

theorem pushLoop_some (L : Library) (txn : GoMap) (db : Store) :
    ∀ (es : List (String × Value)) (b b1 : Block), pushLoop L txn db b es = some b1 →
      ∃ txs, List.Forall₂ (Recorded L txn db) es txs ∧
        b1 = { b with Transactions := b.Transactions ++ txs } := by
  intro es
  induction es with
  | nil =>
    intro b b1 h
    simp only [pushLoop, Option.some.injEq] at h
    exact ⟨[], List.Forall₂.nil, by simp [← h]⟩
  | cons kv rest ih =>
    intro b b1 h
    unfold pushLoop at h
    cases he : pushEntry L txn db b kv with
    | none => simp [he] at h
    | some b0 =>
      simp only [he] at h
      obtain ⟨tx, hrec, hb0⟩ := pushEntry_some L txn db b b0 kv he
      obtain ⟨txs, hall, hb1⟩ := ih b0 b1 h
      refine ⟨tx :: txs, List.Forall₂.cons hrec hall, ?_⟩
      rw [hb1, hb0]
      simp

theorem pushLoop_total (L : Library) (txn : GoMap) (db : Store) :
    ∀ (es : List (String × Value)) (b : Block), (∀ kv ∈ es, EntryOK L db kv) →
      ∃ b1, pushLoop L txn db b es = some b1 := by
  intro es
  induction es with
  | nil => intro b _; exact ⟨b, rfl⟩
  | cons kv rest ih =>
    intro b h
    obtain ⟨b0, he⟩ := pushEntry_total L txn db b kv (h kv (List.mem_cons_self _ _))
    obtain ⟨b1, hb1⟩ := ih b0 (fun kv' hkv => h kv' (List.mem_cons_of_mem _ hkv))
    exact ⟨b1, by simp [pushLoop, he, hb1]⟩

/-! ## One call of `AddTransaction` -/

theorem CommitBlock_eq (L : Library) (p : Nat) (b : Block) (db : Store) (ch : List Nat) :
    CommitBlock L p b db ch = (sealBlock L b, commitWrites L db b.Transactions, ch ++ [p]) :=
  rfl

theorem ensureBlock_some (bc bc1 : Blockchain) (now : Time) (h : ensureBlock bc now = some bc1) :
    bc1 = bc ∨ ∃ nb, CreateNewBlock bc now = some nb ∧
      bc1 = { bc with
        heap := bc.heap ++ [nb]
        LatestBlock := some bc.heap.length
        Blocks := bc.Blocks ++ [bc.heap.length] } := by
  have fresh : ∀ r : Blockchain,
      (match CreateNewBlock bc now with
        | none => none
        | some newBlock =>
          some { bc with
            heap := bc.heap ++ [newBlock]
            LatestBlock := some bc.heap.length
            Blocks := bc.Blocks ++ [bc.heap.length] }) = some r →
      ∃ nb, CreateNewBlock bc now = some nb ∧
        r = { bc with
          heap := bc.heap ++ [nb]
          LatestBlock := some bc.heap.length
          Blocks := bc.Blocks ++ [bc.heap.length] } := by
    intro r hr
    cases hc : CreateNewBlock bc now with
    | none => simp [hc] at hr
    | some nb =>
      simp only [hc, Option.some.injEq] at hr
      exact ⟨nb, rfl, hr.symm⟩
  unfold ensureBlock at h
  cases hl : bc.LatestBlock with
  | none =>
    simp only [hl] at h
    exact Or.inr (fresh bc1 h)
  | some p =>
    simp only [hl] at h
    cases hp : bc.heap[p]? with
    | none => simp [hp] at h
    | some latest =>
      simp only [hp] at h
      by_cases hfull : latest.Transactions.length ≥ latest.BlockSize
      · rw [if_pos hfull] at h
        exact Or.inr (fresh bc1 h)
      · rw [if_neg hfull] at h
        simp only [Option.some.injEq] at h
        exact Or.inl h.symm

theorem ensureBlock_db (bc bc1 : Blockchain) (now : Time) (h : ensureBlock bc now = some bc1) :
    bc1.db = bc.db ∧ bc1.BlockChannel = bc.BlockChannel := by
  rcases ensureBlock_some bc bc1 now h with h1 | ⟨nb, _, h1⟩ <;> simp [h1]

theorem AddTransaction_some (L : Library) (bc bc2 : Blockchain) (now : Time) (txn : GoMap)
    (h : AddTransaction L bc now txn = some bc2) :
    ∃ bc1 p b b1, ensureBlock bc now = some bc1 ∧ bc1.LatestBlock = some p ∧
      bc1.heap[p]? = some b ∧ PushValidTransaction L b txn bc1.db = some b1 ∧
      ((b1.BlockSize ≤ b1.Transactions.length ∧
          bc2 = { bc1 with
            heap := bc1.heap.set p (sealBlock L b1)
            db := commitWrites L bc1.db b1.Transactions
            BlockChannel := bc1.BlockChannel ++ [p] }) ∨
        (b1.Transactions.length < b1.BlockSize ∧
          bc2 = { bc1 with heap := bc1.heap.set p b1 })) := by
  unfold AddTransaction at h
  cases he : ensureBlock bc now with
  | none => simp [he] at h
  | some bc1 =>
    simp only [he] at h
    cases hl : bc1.LatestBlock with
    | none => simp [hl] at h
    | some p =>
      simp only [hl] at h
      cases hp : bc1.heap[p]? with
      | none => simp [hp] at h
      | some b =>
        simp only [hp] at h
        cases hpush : PushValidTransaction L b txn bc1.db with
        | none => simp [hpush] at h
        | some b1 =>
          simp only [hpush] at h
          refine ⟨bc1, p, b, b1, rfl, hl, hp, hpush, ?_⟩
          by_cases hfull : b1.Transactions.length ≥ b1.BlockSize
          · rw [if_pos hfull, CommitBlock_eq] at h
            simp only [Option.some.injEq] at h
            exact Or.inl ⟨hfull, by rw [hl]; exact h.symm⟩
          · rw [if_neg hfull] at h
            simp only [Option.some.injEq] at h
            exact Or.inr ⟨Nat.lt_of_not_le hfull, by rw [hl]; exact h.symm⟩

theorem commitWrites_frame (L : Library) :
    ∀ (txs : List Transaction) (db : Store) (k : String),
      (∀ tx ∈ txs, tx.Valid = true → tx.ID ≠ k) → commitWrites L db txs k = db k := by
  intro txs
  induction txs with
  | nil => intro db k _; rfl
  | cons tx rest ih =>
    intro db k h
    unfold commitWrites
    rw [ih _ k (fun t ht => h t (List.mem_cons_of_mem _ ht))]
    by_cases hv : tx.Valid = true
    · have hne : k ≠ tx.ID := fun e => h tx (List.mem_cons_self _ _) hv e.symm
      simp [hv, Store.put, hne]
    · simp [hv]

theorem storeVerdict_of_stored (L : Library) (db : Store) (key : String) (sv ver : Float64)
    (h : StoredVersion L db key sv) : storeVerdict L db key ver = some (Float64.eq sv ver) := by
  obtain ⟨dbValue, hdb, hs⟩ := h
  simp [storeVerdict, hdb, hs]

theorem storeVerdict_of_missing (L : Library) (db : Store) (key : String) (ver : Float64)
    (h : db key = none) : storeVerdict L db key ver = some false := by
  simp [storeVerdict, h]

theorem pushEntry_of_recorded (L : Library) (txn txn2 : GoMap) (db : Store) (b2 : Block)
    (kv : String × Value) (tx : Transaction) (h : Recorded L txn db kv tx) :
    pushEntry L txn2 db b2 kv = some { b2 with Transactions := b2.Transactions ++
      [{ ID := GenerateTxnID L txn2, TxData := tx.TxData, Valid := tx.Valid,
         Version := tx.Version }] } := by
  obtain ⟨hm, hv, hs, _⟩ := h
  simp [pushEntry, hm, assertMap, hv, hs]

theorem CreateNewBlock_total (bc : Blockchain) (now : Time)
    (hptr : ∀ p, bc.LatestBlock = some p → p < bc.heap.length) :
    ∃ nb, CreateNewBlock bc now = some nb := by
  cases hl : bc.LatestBlock with
  | none => simp [CreateNewBlock, hl]
  | some p => simp [CreateNewBlock, hl, List.getElem?_eq_getElem (hptr p hl)]

theorem ensureBlock_total (bc : Blockchain) (now : Time)
    (hptr : ∀ p, bc.LatestBlock = some p → p < bc.heap.length) :
    ∃ bc1 p b, ensureBlock bc now = some bc1 ∧ bc1.LatestBlock = some p ∧
      bc1.heap[p]? = some b ∧ bc1.db = bc.db := by
  obtain ⟨nb, hnb⟩ := CreateNewBlock_total bc now hptr
  have fresh : ∃ p b,
      ({ bc with
          heap := bc.heap ++ [nb]
          LatestBlock := some bc.heap.length
          Blocks := bc.Blocks ++ [bc.heap.length] } : Blockchain).LatestBlock = some p ∧
      ({ bc with
          heap := bc.heap ++ [nb]
          LatestBlock := some bc.heap.length
          Blocks := bc.Blocks ++ [bc.heap.length] } : Blockchain).heap[p]? = some b :=
    ⟨bc.heap.length, nb, rfl, by simp⟩
  obtain ⟨q, c, hq, hc⟩ := fresh
  cases hl : bc.LatestBlock with
  | none =>
    exact ⟨_, q, c, by simp only [ensureBlock, hnb, hl], hq, hc, rfl⟩
  | some p =>
    have hp : p < bc.heap.length := hptr p hl
    by_cases hfull : (bc.heap[p]).Transactions.length ≥ (bc.heap[p]).BlockSize
    · exact ⟨_, q, c,
        by simp only [ensureBlock, hnb, hl, List.getElem?_eq_getElem hp, if_pos hfull],
        hq, hc, rfl⟩
    · exact ⟨bc, p, bc.heap[p],
        by simp only [ensureBlock, hl, List.getElem?_eq_getElem hp, if_neg hfull],
        hl, List.getElem?_eq_getElem hp, rfl⟩

/-! ## Claims about one call -/

/-- C6: `PushValidTransaction` on a payload whose entries are maps with a
`float64` field `ver`, over a store whose values under the payload keys decode,
returns and appends one record per entry; the record of an entry is marked
valid exactly when the store lookup of its key succeeds and the stored `ver`
equals (Go `==`) the declared one, a missing key or a differing version give
`Valid = false`, and validating the same entry again against the same store,
in any block and as part of any payload, gives the same verdict. -/
theorem c6_valid_iff_stored_version_equal (L : Library) (b : Block) (txn : GoMap) (db : Store)
    (hok : ∀ kv ∈ txn, EntryOK L db kv) :
    ∃ b1 txs, PushValidTransaction L b txn db = some b1 ∧
      b1 = { b with Transactions := b.Transactions ++ txs } ∧
      List.Forall₂ (fun kv tx =>
        kv.2 = Value.map tx.TxData ∧
        assertFloat64 (tx.TxData.lookup "ver") = some tx.Version ∧
        (tx.Valid = true ↔
          ∃ sv, StoredVersion L db kv.1 sv ∧ Float64.eq sv tx.Version = true) ∧
        (db kv.1 = none → tx.Valid = false) ∧
        (∀ sv, StoredVersion L db kv.1 sv → Float64.eq sv tx.Version = false →
          tx.Valid = false) ∧
        (∀ (b2 : Block) (txn2 : GoMap), ∃ tx2,
          pushEntry L txn2 db b2 kv =
            some { b2 with Transactions := b2.Transactions ++ [tx2] } ∧
          tx2.Valid = tx.Valid)) txn txs := by
  obtain ⟨b1, hb1⟩ := pushLoop_total L txn db txn b hok
  obtain ⟨txs, hall, hb⟩ := pushLoop_some L txn db txn b b1 hb1
  refine ⟨b1, txs, hb1, hb, hall.imp ?_⟩
  intro kv tx hrec
  have hs := hrec.2.2.1
  refine ⟨hrec.1, hrec.2.1, ?_, ?_, ?_, ?_⟩
  · rw [← storeVerdict_true_iff, hs]
    simp
  · intro hmiss
    rw [storeVerdict_of_missing L db kv.1 tx.Version hmiss] at hs
    simpa using hs.symm
  · intro sv hsv hne
    rw [storeVerdict_of_stored L db kv.1 sv tx.Version hsv, hne] at hs
    simpa using hs.symm
  · intro b2 txn2
    exact ⟨_, pushEntry_of_recorded L txn txn2 db b2 kv tx hrec, rfl⟩

/-- C7: a call of `AddTransaction` sends at most one block; when it sends none
(no block is committed) the store is unchanged; and every key whose stored
value differs after the call is the ID of a transaction marked valid in the
block committed by the call.  So no other key is written: not by validation,
not for an invalid transaction, and not the logical key of a version-mismatched
transaction (unless that key is itself such an ID). -/
theorem c7_store_changes_only_at_valid_ids (L : Library) (bc bc2 : Blockchain) (now : Time)
    (txn : GoMap) (h : AddTransaction L bc now txn = some bc2) :
    (bc2.BlockChannel = bc.BlockChannel ∨ ∃ p, bc2.BlockChannel = bc.BlockChannel ++ [p]) ∧
    (bc2.BlockChannel = bc.BlockChannel → bc2.db = bc.db) ∧
    (∀ k, bc2.db k ≠ bc.db k →
      ∃ p b tx, bc2.BlockChannel = bc.BlockChannel ++ [p] ∧ bc2.heap[p]? = some b ∧
        b.Status = BlockStatus.Committed ∧ tx ∈ b.Transactions ∧ tx.Valid = true ∧
        tx.ID = k) := by
  obtain ⟨bc1, p, b, b1, he, _, hp, _, hcase⟩ := AddTransaction_some L bc bc2 now txn h
  obtain ⟨hdb, hch⟩ := ensureBlock_db bc bc1 now he
  rcases hcase with ⟨_, h2⟩ | ⟨_, h2⟩
  · subst h2
    refine ⟨Or.inr ⟨p, by simp [hch]⟩, ?_, ?_⟩
    · intro hsame
      simp [hch] at hsame
    · intro k hk
      simp only [hdb] at hk
      have hex : ∃ tx ∈ b1.Transactions, tx.Valid = true ∧ tx.ID = k := by
        by_contra hno
        push_neg at hno
        exact hk (commitWrites_frame L b1.Transactions bc.db k hno)
      obtain ⟨tx, hmem, hv, hid⟩ := hex
      have hlt : p < bc1.heap.length := by
        rcases Nat.lt_or_ge p bc1.heap.length with hlt | hge
        · exact hlt
        · rw [List.getElem?_eq_none hge] at hp
          cases hp
      refine ⟨p, sealBlock L b1, tx, by simp [hch], ?_, rfl, hmem, hv, hid⟩
      simp [List.getElem?_set, hlt]
  · subst h2
    refine ⟨Or.inl hch, fun _ => hdb, ?_⟩
    intro k hk
    exact absurd (congrFun hdb k) hk

theorem AddTransaction_total (L : Library) (bc : Blockchain) (now : Time)
    (txn : GoMap) (hptr : ∀ p, bc.LatestBlock = some p → p < bc.heap.length)
    (hok : ∀ kv ∈ txn, EntryOK L bc.db kv) :
    ∃ bc2, AddTransaction L bc now txn = some bc2 := by
  obtain ⟨bc1, p, b, he, hl, hp, hdb⟩ := ensureBlock_total bc now hptr
  obtain ⟨b1, hb1⟩ := pushLoop_total L txn bc1.db txn b (by rw [hdb]; exact hok)
  by_cases hfull : b1.Transactions.length ≥ b1.BlockSize
  · simp [AddTransaction, he, hl, hp, PushValidTransaction, hb1, hfull, CommitBlock_eq]
  · simp [AddTransaction, he, hl, hp, PushValidTransaction, hb1, hfull]

/-- C10 (as amended): from every state whose latest-block pointer, when set,
points into the memory, with a payload whose sub-payloads are all maps with a
`float64` field `ver` and a store in which every payload key is either absent
or holds a value that decodes to a map with a `float64` `ver`, `AddTransaction`
completes without a panic; the latest block then ends with one record per
entry of the payload, and the record of an entry whose store lookup fails is
marked invalid. -/
theorem c10_completes_on_well_formed_input (L : Library) (bc : Blockchain) (now : Time)
    (txn : GoMap) (hptr : ∀ p, bc.LatestBlock = some p → p < bc.heap.length)
    (hok : ∀ kv ∈ txn, EntryOK L bc.db kv) :
    ∃ bc2 p blk old txs, AddTransaction L bc now txn = some bc2 ∧
      bc2.LatestBlock = some p ∧ bc2.heap[p]? = some blk ∧
      blk.Transactions = old ++ txs ∧
      List.Forall₂ (fun kv tx => bc.db kv.1 = none → tx.Valid = false) txn txs := by
  obtain ⟨bc2, h⟩ := AddTransaction_total L bc now txn hptr hok
  obtain ⟨bc1, p, b, b1, he, hl, hp, hpush, hcase⟩ := AddTransaction_some L bc bc2 now txn h
  obtain ⟨txs, hrec, hb1⟩ := pushLoop_some L txn bc1.db txn b b1 hpush
  rw [(ensureBlock_db bc bc1 now he).1] at hrec
  have hlt : p < bc1.heap.length := (List.getElem?_eq_some.1 hp).1
  have hinvalid : List.Forall₂ (fun kv tx => bc.db kv.1 = none → tx.Valid = false) txn txs := by
    refine hrec.imp ?_
    intro kv tx hr hmiss
    have hs := hr.2.2.1
    rw [storeVerdict_of_missing L bc.db kv.1 tx.Version hmiss] at hs
    simpa using hs.symm
  rcases hcase with ⟨_, h2⟩ | ⟨_, h2⟩
  · refine ⟨bc2, p, sealBlock L b1, b.Transactions, txs, h, ?_, ?_, ?_, hinvalid⟩
    · rw [h2]; exact hl
    · rw [h2]; simp [List.getElem?_set, hlt]
    · rw [hb1]; rfl
  · refine ⟨bc2, p, b1, b.Transactions, txs, h, ?_, ?_, ?_, hinvalid⟩
    · rw [h2]; exact hl
    · rw [h2]; simp [List.getElem?_set, hlt]
    · rw [hb1]

theorem EntryOK_singlePayload_seeded (key : String) (v : Float64)
    (hkey : seededStore key = none ∨ key = "SIM1") :
    ∀ kv ∈ singlePayload key v, EntryOK sampleLibrary seededStore kv := by
  intro kv hkv
  simp only [singlePayload, List.mem_singleton] at hkv
  subst hkv
  refine ⟨⟨_, v, rfl, by simp [List.lookup, assertFloat64]⟩, ?_⟩
  rcases hkey with hnone | hsim
  · exact Or.inl hnone
  · subst hsim
    exact Or.inr ⟨f64One, _, rfl, by decide⟩

theorem c10_completes_on_well_formed_input_witness :
    (∀ p, (emptyBlockchain seededStore).LatestBlock = some p →
      p < (emptyBlockchain seededStore).heap.length) ∧
    (∀ kv ∈ singlePayload "SIM1" f64Two,
      EntryOK sampleLibrary (emptyBlockchain seededStore).db kv) ∧
    ∃ bc2 p blk old txs,
      AddTransaction sampleLibrary (emptyBlockchain seededStore) 1
        (singlePayload "SIM1" f64Two) = some bc2 ∧
      bc2.LatestBlock = some p ∧ bc2.heap[p]? = some blk ∧ blk.Transactions = old ++ txs ∧
      List.Forall₂ (fun kv tx => (emptyBlockchain seededStore).db kv.1 = none → tx.Valid = false)
        (singlePayload "SIM1" f64Two) txs :=
  ⟨fun p hp => by simp [emptyBlockchain] at hp,
    EntryOK_singlePayload_seeded "SIM1" f64Two (Or.inr rfl),
    c10_completes_on_well_formed_input sampleLibrary (emptyBlockchain seededStore) 1
      (singlePayload "SIM1" f64Two) (fun p hp => by simp [emptyBlockchain] at hp)
      (EntryOK_singlePayload_seeded "SIM1" f64Two (Or.inr rfl))⟩

/-- C10 (counterexample): on the empty chain, a payload whose sub-payload is a
string, and a payload whose sub-payload is a map without a `ver` field, each
make `AddTransaction` panic. -/
theorem c10_bad_payload_panics :
    (AddTransaction sampleLibrary (emptyBlockchain seededStore) 1 badPayload).isSome = false ∧
    (AddTransaction sampleLibrary (emptyBlockchain seededStore) 1 noVerPayload).isSome = false := by
  decide

/-! ## The invariant of the chain -/

theorem getElem?_snoc {α : Type} (pre : List α) (x c : α) (i : Nat) :
    (pre ++ [x])[i]? = some c ↔ (i < pre.length ∧ pre[i]? = some c) ∨ (i = pre.length ∧ c = x) := by
  rcases Nat.lt_trichotomy i pre.length with hlt | heq | hgt
  · rw [List.getElem?_append_left hlt]
    constructor
    · intro h; exact Or.inl ⟨hlt, h⟩
    · rintro (⟨_, h⟩ | ⟨h, _⟩)
      · exact h
      · omega
  · subst heq
    rw [List.getElem?_concat_length]
    constructor
    · intro h
      simp only [Option.some.injEq] at h
      exact Or.inr ⟨rfl, h.symm⟩
    · rintro (⟨h, _⟩ | ⟨_, h⟩)
      · omega
      · rw [h]
  · rw [List.getElem?_eq_none (by simp; omega)]
    constructor
    · intro h; cases h
    · rintro (⟨h, _⟩ | ⟨h, _⟩) <;> omega

theorem Linked_nil (L : Library) : Linked L [] := by
  refine ⟨?_, ?_, ?_, ?_⟩ <;> intros <;> simp_all

theorem Linked_replace_last (L : Library) (pre : List Block) (b x : Block)
    (h : Linked L (pre ++ [b])) (hx : BlockOK L pre.length x)
    (hprev : x.PrevBlockHash = b.PrevBlockHash) : Linked L (pre ++ [x]) := by
  obtain ⟨h1, h2, h3, h4⟩ := h
  refine ⟨?_, ?_, ?_, ?_⟩
  · intro i c hc
    rcases (getElem?_snoc pre x c i).1 hc with ⟨hlt, hc⟩ | ⟨hi, hc⟩
    · exact h1 i c ((getElem?_snoc pre b c i).2 (Or.inl ⟨hlt, hc⟩))
    · rw [hi, hc]; exact hx
  · intro i c hc hlen
    simp only [List.length_append, List.length_singleton] at hlen
    rcases (getElem?_snoc pre x c i).1 hc with ⟨hlt, hc⟩ | ⟨hi, _⟩
    · exact h2 i c ((getElem?_snoc pre b c i).2 (Or.inl ⟨hlt, hc⟩)) (by simpa using hlen)
    · omega
  · intro c hc
    rcases (getElem?_snoc pre x c 0).1 hc with ⟨hlt, hc⟩ | ⟨hi, hc⟩
    · exact h3 c ((getElem?_snoc pre b c 0).2 (Or.inl ⟨hlt, hc⟩))
    · rw [hc, hprev]
      exact h3 b ((getElem?_snoc pre b b 0).2 (Or.inr ⟨hi, rfl⟩))
  · intro i a c ha hc
    rcases (getElem?_snoc pre x c (i + 1)).1 hc with ⟨hlt, hc⟩ | ⟨hi, hc⟩
    · rcases (getElem?_snoc pre x a i).1 ha with ⟨hlt2, ha⟩ | ⟨hi2, _⟩
      · exact h4 i a c ((getElem?_snoc pre b a i).2 (Or.inl ⟨hlt2, ha⟩))
          ((getElem?_snoc pre b c (i + 1)).2 (Or.inl ⟨hlt, hc⟩))
      · omega
    · rcases (getElem?_snoc pre x a i).1 ha with ⟨hlt2, ha⟩ | ⟨hi2, _⟩
      · rw [hc, hprev]
        exact h4 i a b ((getElem?_snoc pre b a i).2 (Or.inl ⟨hlt2, ha⟩))
          ((getElem?_snoc pre b b (i + 1)).2 (Or.inr ⟨hi, rfl⟩))
      · omega

theorem Linked_snoc (L : Library) (h : List Block) (x : Block) (hl : Linked L h)
    (hfull : ∀ l, h.getLast? = some l → l.BlockSize ≤ l.Transactions.length)
    (hx : BlockOK L h.length x) (hprev : x.PrevBlockHash = prevHashOf h) :
    Linked L (h ++ [x]) := by
  obtain ⟨h1, h2, h3, h4⟩ := hl
  refine ⟨?_, ?_, ?_, ?_⟩
  · intro i c hc
    rcases (getElem?_snoc h x c i).1 hc with ⟨_, hc⟩ | ⟨hi, hc⟩
    · exact h1 i c hc
    · rw [hi, hc]; exact hx
  · intro i c hc hlen
    simp only [List.length_append, List.length_singleton] at hlen
    rcases (getElem?_snoc h x c i).1 hc with ⟨hlt, hc⟩ | ⟨hi, _⟩
    · by_cases hlast : i + 1 < h.length
      · exact h2 i c hc hlast
      · have hi : i = h.length - 1 := by omega
        have hgl : h.getLast? = some c := by
          rw [List.getLast?_eq_getElem?, ← hi]; exact hc
        exact (h1 i c hc).2.2.1.2 (hfull c hgl)
    · omega
  · intro c hc
    rcases (getElem?_snoc h x c 0).1 hc with ⟨_, hc⟩ | ⟨hi, hc⟩
    · exact h3 c hc
    · have hnil : h = [] := List.length_eq_zero.1 hi.symm
      rw [hc, hprev, hnil]
      rfl
  · intro i a c ha hc
    rcases (getElem?_snoc h x c (i + 1)).1 hc with ⟨_, hc⟩ | ⟨hi, hc⟩
    · rcases (getElem?_snoc h x a i).1 ha with ⟨_, ha⟩ | ⟨hi2, _⟩
      · exact h4 i a c ha hc
      · have := (List.getElem?_eq_some.1 hc).1
        omega
    · rcases (getElem?_snoc h x a i).1 ha with ⟨_, ha⟩ | ⟨hi2, _⟩
      · have hgl : h.getLast? = some a := by
          rw [List.getLast?_eq_getElem?]
          have : h.length - 1 = i := by omega
          rw [this]; exact ha
        rw [hc, hprev]
        simp [prevHashOf, hgl]
      · omega

theorem status_pending_of_not_committed (b : Block)
    (h : ¬ b.Status = BlockStatus.Committed) : b.Status = BlockStatus.Pending := by
  cases hs : b.Status with
  | Committed => exact absurd hs h
  | Pending => rfl

theorem BlockOK_fresh (L : Library) (n : Nat) (prevHash : String) (now : Time) :
    BlockOK L n (freshBlock n prevHash now) := by
  refine ⟨rfl, rfl, ?_, fun _ => rfl, ?_⟩
  · simp [freshBlock]
  · intro h; simp [freshBlock] at h

theorem BlockOK_pushed (L : Library) (i : Nat) (b : Block) (txs : List Transaction)
    (hb : BlockOK L i b) (hp : b.Status = BlockStatus.Pending)
    (hlt : (b.Transactions ++ txs).length < 3) :
    BlockOK L i { b with Transactions := b.Transactions ++ txs } := by
  obtain ⟨h1, h2, _, h4, _⟩ := hb
  refine ⟨h1, h2, ?_, h4, ?_⟩
  · simp only [hp, h2]
    constructor
    · intro h; cases h
    · intro h; omega
  · intro h
    simp only [hp] at h
    cases h

theorem BlockOK_sealed (L : Library) (i : Nat) (b : Block) (txs : List Transaction)
    (hb : BlockOK L i b) (hp : b.Status = BlockStatus.Pending)
    (hge : 3 ≤ (b.Transactions ++ txs).length) :
    BlockOK L i (sealBlock L { b with Transactions := b.Transactions ++ txs }) := by
  obtain ⟨h1, h2, _, h4, _⟩ := hb
  refine ⟨h1, h2, ?_, ?_, ?_⟩
  · simp only [sealBlock, UpdateBlockStatus, h2, true_iff]
    exact hge
  · intro h
    simp [sealBlock, UpdateBlockStatus] at h
  · intro _
    simp only [sealBlock, UpdateBlockStatus, h4 hp]

theorem mem_getElem?_snoc {α : Type} (pre : List α) (x c : α) (h : c ∈ pre) :
    ∃ i, (pre ++ [x])[i]? = some c ∧ i + 1 < (pre ++ [x]).length := by
  obtain ⟨i, hi⟩ := List.mem_iff_getElem?.1 h
  have hlt : i < pre.length := (List.getElem?_eq_some.1 hi).1
  exact ⟨i, (getElem?_snoc pre x c i).2 (Or.inl ⟨hlt, hi⟩), by simp; omega⟩

theorem Linked_init_committed (L : Library) (pre : List Block) (x : Block)
    (h : Linked L (pre ++ [x])) : ∀ c ∈ pre, c.Status = BlockStatus.Committed := by
  intro c hc
  obtain ⟨i, hi, hlen⟩ := mem_getElem?_snoc pre x c hc
  exact h.2.1 i c hi hlen

theorem Linked_last (L : Library) (pre : List Block) (x : Block)
    (h : Linked L (pre ++ [x])) : BlockOK L pre.length x :=
  h.1 pre.length x ((getElem?_snoc pre x x pre.length).2 (Or.inr ⟨rfl, rfl⟩))

theorem CreateNewBlock_shape (bc : Blockchain) (now : Time) (hs : Shape bc) :
    CreateNewBlock bc now = some (freshBlock bc.heap.length (prevHashOf bc.heap) now) := by
  obtain ⟨hB, hL⟩ := hs
  rcases List.eq_nil_or_concat bc.heap with hnil | ⟨pre, l, hcons⟩
  · simp [CreateNewBlock, hL, hB, hnil, freshBlock, prevHashOf]
  · rw [List.concat_eq_append] at hcons
    simp [CreateNewBlock, hL, hB, hcons, freshBlock, prevHashOf]

theorem filter_committed_eq_self (h : List Block)
    (hall : ∀ c ∈ h, c.Status = BlockStatus.Committed) : h.filter isCommitted = h :=
  List.filter_eq_self.2 (fun c hc => by simp [isCommitted, hall c hc])

theorem ensureBlock_inv (L : Library) (bc bc1 : Blockchain) (now : Time) (hinv : Inv L bc)
    (he : ensureBlock bc now = some bc1) :
    ∃ pre b, bc1.heap = pre ++ [b] ∧ bc1.LatestBlock = some pre.length ∧
      bc1.Blocks = List.range (pre.length + 1) ∧ bc1.db = bc.db ∧
      bc1.BlockChannel = bc.BlockChannel ∧ bc.BlockChannel = List.range pre.length ∧
      Linked L (pre ++ [b]) ∧ (∀ c ∈ pre, c.Status = BlockStatus.Committed) ∧
      b.Status = BlockStatus.Pending ∧ b.Transactions.length < 3 ∧
      ((bc.heap = pre ∧ b.Transactions = [] ∧
          (∀ l, pre.getLast? = some l → l.BlockSize ≤ l.Transactions.length)) ∨
        bc.heap = pre ++ [b]) := by
  obtain ⟨hshape, hlinked, hch⟩ := hinv
  have hcreate := CreateNewBlock_shape bc now hshape
  have fresh : (∀ l, bc.heap.getLast? = some l → l.BlockSize ≤ l.Transactions.length) →
      bc1 = { bc with
        heap := bc.heap ++ [freshBlock bc.heap.length (prevHashOf bc.heap) now]
        LatestBlock := some bc.heap.length
        Blocks := bc.Blocks ++ [bc.heap.length] } →
      ∃ pre b, bc1.heap = pre ++ [b] ∧ bc1.LatestBlock = some pre.length ∧
        bc1.Blocks = List.range (pre.length + 1) ∧ bc1.db = bc.db ∧
        bc1.BlockChannel = bc.BlockChannel ∧ bc.BlockChannel = List.range pre.length ∧
        Linked L (pre ++ [b]) ∧ (∀ c ∈ pre, c.Status = BlockStatus.Committed) ∧
        b.Status = BlockStatus.Pending ∧ b.Transactions.length < 3 ∧
        ((bc.heap = pre ∧ b.Transactions = [] ∧
            (∀ l, pre.getLast? = some l → l.BlockSize ≤ l.Transactions.length)) ∨
          bc.heap = pre ++ [b]) := by
    intro hfull h1
    have hlk : Linked L (bc.heap ++ [freshBlock bc.heap.length (prevHashOf bc.heap) now]) :=
      Linked_snoc L bc.heap _ hlinked hfull (BlockOK_fresh L _ _ _) rfl
    have hall := Linked_init_committed L _ _ hlk
    refine ⟨bc.heap, freshBlock bc.heap.length (prevHashOf bc.heap) now, by rw [h1],
      by rw [h1], ?_, by rw [h1], by rw [h1], ?_, hlk, hall, rfl, by simp [freshBlock],
      Or.inl ⟨rfl, rfl, hfull⟩⟩
    · rw [h1]
      simp only [hshape.1, List.range_succ]
    · rw [hch, filter_committed_eq_self bc.heap hall]
  rcases List.eq_nil_or_concat bc.heap with hnil | ⟨pre, l, hcons⟩
  · have hL : bc.LatestBlock = none := by
      have := hshape.2
      simpa [hnil] using this
    simp only [ensureBlock, hL, hcreate, Option.some.injEq] at he
    exact fresh (by simp [hnil]) he.symm
  · rw [List.concat_eq_append] at hcons
    have hL : bc.LatestBlock = some pre.length := by
      have := hshape.2
      simpa [hcons] using this
    have hp : bc.heap[pre.length]? = some l := by simp [hcons]
    have hok : BlockOK L pre.length l := Linked_last L pre l (hcons ▸ hlinked)
    by_cases hfull : l.Transactions.length ≥ l.BlockSize
    · simp only [ensureBlock, hL, hp, hcreate, if_pos hfull, Option.some.injEq] at he
      refine fresh ?_ he.symm
      intro l2 hl2
      rw [hcons, List.getLast?_concat] at hl2
      simp only [Option.some.injEq] at hl2
      rw [← hl2]; exact hfull
    · simp only [ensureBlock, hL, hp, if_neg hfull, Option.some.injEq] at he
      subst he
      have hpend : l.Status = BlockStatus.Pending :=
        status_pending_of_not_committed l (fun hc => hfull (hok.2.2.1.1 hc))
      have hall := Linked_init_committed L pre l (hcons ▸ hlinked)
      refine ⟨pre, l, hcons, hL, ?_, rfl, rfl, ?_, hcons ▸ hlinked, hall, hpend, ?_,
        Or.inr hcons⟩
      · rw [hshape.1, hcons]; simp
      · rw [hch, hcons, List.filter_append, filter_committed_eq_self pre hall]
        simp [isCommitted, hpend]
      · have := hok.2.1
        omega

theorem AddTransaction_inv (L : Library) (bc bc2 : Blockchain) (now : Time) (txn : GoMap)
    (hinv : Inv L bc) (h : AddTransaction L bc now txn = some bc2) :
    Inv L bc2 ∧ StepFacts L bc bc2 txn := by
  obtain ⟨bc1, p, b0, b1, he, hl, hp, hpush, hcase⟩ := AddTransaction_some L bc bc2 now txn h
  obtain ⟨pre, b, hheap, hlatest, hblocks, hdb, hch1, hch, hlk, hall, hpend, hlen, hold⟩ :=
    ensureBlock_inv L bc bc1 now hinv he
  have hpe : p = pre.length := by
    rw [hlatest] at hl
    exact (Option.some.inj hl).symm
  subst hpe
  have hb0 : b0 = b := by
    rw [hheap, List.getElem?_concat_length] at hp
    exact (Option.some.inj hp).symm
  subst hb0
  obtain ⟨txs, hrec, hb1⟩ := pushLoop_some L txn bc1.db txn b0 b1 hpush
  rw [hdb] at hrec
  have hok : BlockOK L pre.length b0 := Linked_last L pre b0 hlk
  have hsize : b1.BlockSize = 3 := by rw [hb1]; exact hok.2.1
  have htx : b1.Transactions = b0.Transactions ++ txs := by rw [hb1]
  rcases hcase with ⟨hfull, h2⟩ | ⟨hnot, h2⟩
  · rw [hsize, htx] at hfull
    have hheap2 : bc2.heap = pre ++ [sealBlock L b1] := by
      rw [h2]; simp [hheap]
    have hlk2 : Linked L (pre ++ [sealBlock L b1]) :=
      Linked_replace_last L pre b0 _ hlk (hb1 ▸ BlockOK_sealed L _ b0 txs hok hpend hfull)
        (by rw [hb1]; rfl)
    refine ⟨⟨⟨?_, ?_⟩, hheap2 ▸ hlk2, ?_⟩, pre, b0, txs, hold, hall, hpend, hok.2.1, hlen, hrec,
      Or.inl ⟨hfull, hb1 ▸ hheap2, ?_, ?_⟩⟩
    · rw [hheap2, h2]; simp [hblocks]
    · rw [hheap2, h2]; simp [hlatest]
    · rw [hheap2, h2]
      simp only [hch1, hch, List.filter_append, filter_committed_eq_self pre hall,
        List.range_succ]
      simp [isCommitted, sealBlock, UpdateBlockStatus, List.range_succ]
    · rw [h2]; simp [hdb, htx]
    · rw [h2]; simp [hch1]
  · rw [hsize, htx] at hnot
    have hheap2 : bc2.heap = pre ++ [b1] := by
      rw [h2]; simp [hheap]
    have hlk2 : Linked L (pre ++ [b1]) :=
      Linked_replace_last L pre b0 _ hlk (hb1 ▸ BlockOK_pushed L _ b0 txs hok hpend hnot)
        (by rw [hb1])
    have hpend1 : b1.Status = BlockStatus.Pending := by rw [hb1]; exact hpend
    refine ⟨⟨⟨?_, ?_⟩, hheap2 ▸ hlk2, ?_⟩, pre, b0, txs, hold, hall, hpend, hok.2.1, hlen, hrec,
      Or.inr ⟨hnot, hb1 ▸ hheap2, ?_, ?_⟩⟩
    · rw [hheap2, h2]; simp [hblocks]
    · rw [hheap2, h2]; simp [hlatest]
    · rw [hheap2, h2]
      simp only [hch1, hch, List.filter_append, filter_committed_eq_self pre hall]
      simp [isCommitted, hpend1]
    · rw [h2]; simp [hdb]
    · rw [h2]; simp [hch1]

/-! ## Sequences of calls -/

theorem Inv_empty (L : Library) (db : Store) : Inv L (emptyBlockchain db) :=
  ⟨⟨rfl, rfl⟩, Linked_nil L, rfl⟩

theorem AddTransactions_inv (L : Library) :
    ∀ (calls : List (Time × GoMap)) (bc s : Blockchain), Inv L bc →
      AddTransactions L bc calls = some s → Inv L s := by
  intro calls
  induction calls with
  | nil =>
    intro bc s hinv h
    simp only [AddTransactions, Option.some.injEq] at h
    exact h ▸ hinv
  | cons call rest ih =>
    intro bc s hinv h
    unfold AddTransactions at h
    cases hc : AddTransaction L bc call.1 call.2 with
    | none => simp [hc] at h
    | some bc1 =>
      simp only [hc] at h
      exact ih bc1 s (AddTransaction_inv L bc bc1 call.1 call.2 hinv hc).1 h

theorem Inv_reached (L : Library) (db : Store) (calls : List (Time × GoMap)) (s : Blockchain)
    (h : AddTransactions L (emptyBlockchain db) calls = some s) : Inv L s :=
  AddTransactions_inv L calls _ s (Inv_empty L db) h

theorem filterMap_range' {α : Type} :
    ∀ (h front : List α),
      (List.range' front.length h.length).filterMap (fun p => (front ++ h)[p]?) = h := by
  intro h
  induction h with
  | nil => intro front; simp
  | cons x t ih =>
    intro front
    have hstep := ih (front ++ [x])
    simp only [List.length_append, List.length_singleton, List.append_assoc,
      List.singleton_append] at hstep
    simp only [List.length_cons, List.range'_succ, List.filterMap_cons]
    rw [List.getElem?_append_right (Nat.le_refl _)]
    simp only [Nat.sub_self, List.getElem?_cons_zero]
    rw [hstep]

theorem chain_eq_heap (bc : Blockchain) (hs : Shape bc) : chain bc = bc.heap := by
  unfold chain
  rw [hs.1, List.range_eq_range']
  exact filterMap_range' bc.heap []

theorem hexChars_ne_nil (bs : Bytes) (h : bs ≠ []) : hexChars bs ≠ [] := by
  cases bs with
  | nil => exact absurd rfl h
  | cons b rest => simp [hexChars]

theorem EncodeToString_ne_empty (bs : Bytes) (h : bs ≠ []) : EncodeToString bs ≠ "" := by
  intro he
  have hdata : (EncodeToString bs).data = ("" : String).data := by rw [he]
  exact hexChars_ne_nil bs h hdata

theorem CalculateBlockHash_ne_empty (L : Library) (hsum : ∀ d, (L.sha256Sum d).length = 32)
    (b : Block) : CalculateBlockHash L b ≠ "" := by
  apply EncodeToString_ne_empty
  intro hnil
  have := hsum (L.jsonMarshalBlock b)
  rw [hnil] at this
  simp at this

theorem eq_some_getD {α : Type} (o : Option α) (d : α) (h : o.isSome = true) :
    o = some (o.getD d) := by
  cases o with
  | none => simp at h
  | some a => rfl

theorem sampleState_reached :
    AddTransactions sampleLibrary (emptyBlockchain seededStore) sampleCalls = some sampleState :=
  eq_some_getD _ _ (by decide)

theorem sampleLater_reached :
    AddTransactions sampleLibrary sampleState sampleMore = some sampleLater :=
  eq_some_getD _ _ (by decide)

theorem sampleSum_length : ∀ d, (sampleLibrary.sha256Sum d).length = 32 := by
  intro d
  simp [sampleLibrary, sampleSum]

/-! ## Claims about every reachable state -/

/-- C3: after every sequence of calls from the empty chain, the first block
has `PrevBlockHash` equal to the genesis value `0x000`, and each later block has
`PrevBlockHash` equal to the `BlockHash` of the block before it, which is
committed and holds the digest computed at its commit (so, for a 32-byte
digest, a non-empty hash). -/
theorem c3_prev_hash_chain (L : Library) (db : Store) (calls : List (Time × GoMap))
    (s : Blockchain) (h : AddTransactions L (emptyBlockchain db) calls = some s) :
    (∀ b, (chain s)[0]? = some b → b.PrevBlockHash = "0x000") ∧
    (∀ i a b, (chain s)[i]? = some a → (chain s)[i + 1]? = some b →
      b.PrevBlockHash = a.BlockHash ∧ a.Status = BlockStatus.Committed ∧
      a.BlockHash = CalculateBlockHash L { a with BlockHash := "" } ∧
      ((∀ d, (L.sha256Sum d).length = 32) → a.BlockHash ≠ "")) := by
  obtain ⟨hshape, ⟨h1, h2, h3, h4⟩, _⟩ := Inv_reached L db calls s h
  rw [chain_eq_heap s hshape]
  refine ⟨h3, ?_⟩
  intro i a b ha hb
  have hlt : i + 1 < s.heap.length := (List.getElem?_eq_some.1 hb).1
  have hcom := h2 i a ha hlt
  have hhash := (h1 i a ha).2.2.2.2 hcom
  refine ⟨h4 i a b ha hb, hcom, hhash, ?_⟩
  intro hsum
  rw [hhash]
  exact CalculateBlockHash_ne_empty L hsum _

theorem c3_prev_hash_chain_witness :
    AddTransactions sampleLibrary (emptyBlockchain seededStore) sampleCalls = some sampleState ∧
    ((∀ b, (chain sampleState)[0]? = some b → b.PrevBlockHash = "0x000") ∧
    (∀ i a b, (chain sampleState)[i]? = some a → (chain sampleState)[i + 1]? = some b →
      b.PrevBlockHash = a.BlockHash ∧ a.Status = BlockStatus.Committed ∧
      a.BlockHash = CalculateBlockHash sampleLibrary { a with BlockHash := "" } ∧
      ((∀ d, (sampleLibrary.sha256Sum d).length = 32) → a.BlockHash ≠ ""))) :=
  ⟨sampleState_reached,
    c3_prev_hash_chain sampleLibrary seededStore sampleCalls sampleState sampleState_reached⟩

/-- C4: with a 32-byte digest, after every sequence of calls from the empty
chain each block with status `Pending` has an empty `BlockHash`, and each block
with status `Committed` has a non-empty one, the hex digest that
`CalculateBlockHash` gave at commit. -/
theorem c4_hash_empty_iff_pending (L : Library) (db : Store) (calls : List (Time × GoMap))
    (s : Blockchain) (hsum : ∀ d, (L.sha256Sum d).length = 32)
    (h : AddTransactions L (emptyBlockchain db) calls = some s) :
    ∀ b ∈ chain s,
      (b.Status = BlockStatus.Pending → b.BlockHash = "") ∧
      (b.Status = BlockStatus.Committed →
        b.BlockHash ≠ "" ∧ b.BlockHash = CalculateBlockHash L { b with BlockHash := "" }) := by
  obtain ⟨hshape, ⟨h1, _, _, _⟩, _⟩ := Inv_reached L db calls s h
  rw [chain_eq_heap s hshape]
  intro b hb
  obtain ⟨i, hi⟩ := List.mem_iff_getElem?.1 hb
  obtain ⟨_, _, _, hp, hc⟩ := h1 i b hi
  refine ⟨hp, fun hcom => ⟨?_, hc hcom⟩⟩
  rw [hc hcom]
  exact CalculateBlockHash_ne_empty L hsum _

theorem c4_hash_empty_iff_pending_witness :
    (∀ d, (sampleLibrary.sha256Sum d).length = 32) ∧
    AddTransactions sampleLibrary (emptyBlockchain seededStore) sampleCalls = some sampleState ∧
    ∀ b ∈ chain sampleState,
      (b.Status = BlockStatus.Pending → b.BlockHash = "") ∧
      (b.Status = BlockStatus.Committed →
        b.BlockHash ≠ "" ∧
        b.BlockHash = CalculateBlockHash sampleLibrary { b with BlockHash := "" }) :=
  ⟨sampleSum_length, sampleState_reached,
    c4_hash_empty_iff_pending sampleLibrary seededStore sampleCalls sampleState sampleSum_length
      sampleState_reached⟩

/-- C5: after every sequence of calls from the empty chain, the block at
position `i` (0-based) of `Blocks` has `BlockNumber = i + 1`. -/
theorem c5_block_numbers_contiguous (L : Library) (db : Store) (calls : List (Time × GoMap))
    (s : Blockchain) (h : AddTransactions L (emptyBlockchain db) calls = some s) :
    ∀ i b, (chain s)[i]? = some b → b.BlockNumber = i + 1 := by
  obtain ⟨hshape, ⟨h1, _, _, _⟩, _⟩ := Inv_reached L db calls s h
  rw [chain_eq_heap s hshape]
  intro i b hb
  exact (h1 i b hb).1

theorem c5_block_numbers_contiguous_witness :
    AddTransactions sampleLibrary (emptyBlockchain seededStore) sampleCalls = some sampleState ∧
    ∀ i b, (chain sampleState)[i]? = some b → b.BlockNumber = i + 1 :=
  ⟨sampleState_reached,
    c5_block_numbers_contiguous sampleLibrary seededStore sampleCalls sampleState
      sampleState_reached⟩

/-- C8: after every sequence of calls from the empty chain, a block has status
`Committed` exactly when its transaction count has reached its `BlockSize`; so
a block that is full when a call returns is committed, and a committed block
has at least one transaction. -/
theorem c8_committed_iff_full (L : Library) (db : Store) (calls : List (Time × GoMap))
    (s : Blockchain) (h : AddTransactions L (emptyBlockchain db) calls = some s) :
    ∀ b ∈ chain s,
      (b.Status = BlockStatus.Committed ↔ b.BlockSize ≤ b.Transactions.length) ∧
      (b.Status = BlockStatus.Committed → b.Transactions ≠ []) := by
  obtain ⟨hshape, ⟨h1, _, _, _⟩, _⟩ := Inv_reached L db calls s h
  rw [chain_eq_heap s hshape]
  intro b hb
  obtain ⟨i, hi⟩ := List.mem_iff_getElem?.1 hb
  obtain ⟨_, hsize, hiff, _, _⟩ := h1 i b hi
  refine ⟨hiff, ?_⟩
  intro hcom hnil
  have := hiff.1 hcom
  rw [hsize, hnil] at this
  simp at this

theorem c8_committed_iff_full_witness :
    AddTransactions sampleLibrary (emptyBlockchain seededStore) sampleCalls = some sampleState ∧
    ∀ b ∈ chain sampleState,
      (b.Status = BlockStatus.Committed ↔ b.BlockSize ≤ b.Transactions.length) ∧
      (b.Status = BlockStatus.Committed → b.Transactions ≠ []) :=
  ⟨sampleState_reached,
    c8_committed_iff_full sampleLibrary seededStore sampleCalls sampleState sampleState_reached⟩

theorem committed_persists_step (L : Library) (bc bc2 : Blockchain) (now : Time) (txn : GoMap)
    (hinv : Inv L bc) (h : AddTransaction L bc now txn = some bc2) :
    ∀ (i : Nat) (c : Block), bc.heap[i]? = some c → c.Status = BlockStatus.Committed → bc2.heap[i]? = some c := by
  obtain ⟨_, pre, b, txs, hold, _, hpend, _, _, _, hnew⟩ := AddTransaction_inv L bc bc2 now txn hinv h
  intro i c hc hcom
  have hpre : i < pre.length ∧ pre[i]? = some c := by
    rcases hold with ⟨hheap, _, _⟩ | hheap
    · rw [hheap] at hc
      exact ⟨(List.getElem?_eq_some.1 hc).1, hc⟩
    · rw [hheap] at hc
      rcases (getElem?_snoc pre b c i).1 hc with hin | ⟨_, hcb⟩
      · exact hin
      · rw [hcb, hpend] at hcom
        cases hcom
  rcases hnew with ⟨_, hheap2, _, _⟩ | ⟨_, hheap2, _, _⟩
  · rw [hheap2]
    exact (getElem?_snoc pre _ c i).2 (Or.inl hpre)
  · rw [hheap2]
    exact (getElem?_snoc pre _ c i).2 (Or.inl hpre)

theorem committed_persists (L : Library) :
    ∀ (more : List (Time × GoMap)) (bc s2 : Blockchain), Inv L bc →
      AddTransactions L bc more = some s2 →
      ∀ (i : Nat) (c : Block), bc.heap[i]? = some c → c.Status = BlockStatus.Committed →
        s2.heap[i]? = some c := by
  intro more
  induction more with
  | nil =>
    intro bc s2 _ h i c hc _
    simp only [AddTransactions, Option.some.injEq] at h
    rw [← h]; exact hc
  | cons call rest ih =>
    intro bc s2 hinv h i c hc hcom
    unfold AddTransactions at h
    cases hstep : AddTransaction L bc call.1 call.2 with
    | none => simp [hstep] at h
    | some bc1 =>
      simp only [hstep] at h
      exact ih bc1 s2 (AddTransaction_inv L bc bc1 call.1 call.2 hinv hstep).1 h i c
        (committed_persists_step L bc bc1 call.1 call.2 hinv hstep i c hc hcom) hcom

/-- C9: a block that is committed after some calls from the empty chain is the
same block (transactions, status, both hashes, number, timestamp) at the same
position after every continuation of the call sequence, and no pointer is sent
on `BlockChannel` twice, so `CommitBlock` runs at most once per block. -/
theorem c9_committed_blocks_are_final (L : Library) (db : Store)
    (calls more : List (Time × GoMap)) (s s2 : Blockchain)
    (h1 : AddTransactions L (emptyBlockchain db) calls = some s)
    (h2 : AddTransactions L s more = some s2) :
    (∀ (i : Nat) (c : Block), (chain s)[i]? = some c → c.Status = BlockStatus.Committed →
      (chain s2)[i]? = some c) ∧
    s2.BlockChannel.Nodup := by
  have hinv := Inv_reached L db calls s h1
  have hinv2 := AddTransactions_inv L more s s2 hinv h2
  rw [chain_eq_heap s hinv.1, chain_eq_heap s2 hinv2.1]
  refine ⟨committed_persists L more s s2 hinv h2, ?_⟩
  rw [hinv2.2.2]
  exact List.nodup_range _

theorem c9_committed_blocks_are_final_witness :
    AddTransactions sampleLibrary (emptyBlockchain seededStore) sampleCalls = some sampleState ∧
    AddTransactions sampleLibrary sampleState sampleMore = some sampleLater ∧
    (∀ (i : Nat) (c : Block), (chain sampleState)[i]? = some c → c.Status = BlockStatus.Committed →
      (chain sampleLater)[i]? = some c) ∧
    sampleLater.BlockChannel.Nodup :=
  ⟨sampleState_reached, sampleLater_reached,
    c9_committed_blocks_are_final sampleLibrary seededStore sampleCalls sampleMore sampleState
      sampleLater sampleState_reached sampleLater_reached⟩

/-- C1 (the code at the failing input): on the empty chain, one call whose
payload bundles four sub-transactions under distinct keys leaves a single
block with four transactions and `BlockSize` three, for every library and
clock reading. -/
theorem c1_four_entries_overfill_block (L : Library) (now : Time) :
    (AddTransaction L (emptyBlockchain noStore) now fourEntries).map
      (fun s => (chain s).map (fun b => (b.Transactions.length, b.BlockSize))) =
    some [(4, 3)] := by
  rfl

/-! ## Calls that carry one sub-transaction each -/

theorem Packed_step (L : Library) (bc bc2 : Blockchain) (now : Time) (txn : GoMap) (n : Nat)
    (hinv : Inv L bc) (hpack : Packed n bc.heap) (hone : txn.length = 1)
    (h : AddTransaction L bc now txn = some bc2) : Packed (n + 1) bc2.heap := by
  obtain ⟨_, pre, b, txs, hold, _, _, _, hlen, hrec, hnew⟩ :=
    AddTransaction_inv L bc bc2 now txn hinv h
  have htxs : txs.length = 1 := by rw [← hrec.length_eq, hone]
  have hx : ∃ x, bc2.heap = pre ++ [x] ∧ x.Transactions = b.Transactions ++ txs := by
    rcases hnew with ⟨_, hheap2, _, _⟩ | ⟨_, hheap2, _, _⟩
    · exact ⟨_, hheap2, rfl⟩
    · exact ⟨_, hheap2, rfl⟩
  obtain ⟨x, hheap2, hxt⟩ := hx
  rw [hheap2]
  rcases hold with ⟨hheap, hnil, hfull⟩ | hheap
  · rw [hheap] at hpack
    have hxlen : x.Transactions.length = 1 := by rw [hxt, hnil]; simpa using htxs
    rcases hpack with ⟨hpre, hn⟩ | ⟨pre0, last0, hpre, hall, _, hle, hn⟩
    · refine Or.inr ⟨pre, x, rfl, ?_, by omega, by omega, ?_⟩
      · rw [hpre]; intro c hc; cases hc
      · rw [hpre, hxlen, hn]; rfl
    · have hlast : pre.getLast? = some last0 := by rw [hpre, List.getLast?_concat]
      have hok : BlockOK L pre0.length last0 := by
        have hlk := hinv.2.1
        rw [hheap, hpre] at hlk
        exact Linked_last L pre0 last0 hlk
      have hge := hfull last0 hlast
      rw [hok.2.1] at hge
      refine Or.inr ⟨pre, x, rfl, ?_, by omega, by omega, ?_⟩
      · rw [hpre]
        intro c hc
        rcases List.mem_append.1 hc with hc | hc
        · exact hall c hc
        · rw [List.mem_singleton.1 hc]; omega
      · rw [hpre, hxlen, hn]
        simp only [List.length_append, List.length_singleton]
        omega
  · rw [hheap] at hpack
    rcases hpack with ⟨hnil, _⟩ | ⟨pre0, last0, hpre, hall, _, _, hn⟩
    · simp at hnil
    · obtain ⟨hp, hl⟩ := List.append_inj' hpre rfl
      simp only [List.cons.injEq, and_true] at hl
      subst hp
      subst hl
      have hxlen : x.Transactions.length = b.Transactions.length + 1 := by
        rw [hxt, List.length_append, htxs]
      exact Or.inr ⟨pre, x, rfl, hall, by omega, by omega, by omega⟩

theorem Packed_run (L : Library) :
    ∀ (calls : List (Time × GoMap)) (bc s : Blockchain) (n : Nat), Inv L bc →
      Packed n bc.heap → (∀ c ∈ calls, c.2.length = 1) →
      AddTransactions L bc calls = some s → Packed (n + calls.length) s.heap := by
  intro calls
  induction calls with
  | nil =>
    intro bc s n _ hpack _ h
    simp only [AddTransactions, Option.some.injEq] at h
    rw [← h]; exact hpack
  | cons call rest ih =>
    intro bc s n hinv hpack hone h
    unfold AddTransactions at h
    cases hstep : AddTransaction L bc call.1 call.2 with
    | none => simp [hstep] at h
    | some bc1 =>
      simp only [hstep] at h
      have hp1 := Packed_step L bc bc1 call.1 call.2 n hinv hpack
        (hone call (List.mem_cons_self _ _)) hstep
      have := ih bc1 s (n + 1) (AddTransaction_inv L bc bc1 call.1 call.2 hinv hstep).1 hp1
        (fun c hc => hone c (List.mem_cons_of_mem _ hc)) h
      rw [List.length_cons]
      rw [show n + (rest.length + 1) = n + 1 + rest.length by omega]
      exact this

theorem Packed_counts (n : Nat) (h : List Block) (hpack : Packed n h) :
    h.length = (n + 2) / 3 ∧
    (∀ (i : Nat) (b : Block), h[i]? = some b → i + 1 < h.length → b.Transactions.length = 3) ∧
    (∀ b, h.getLast? = some b → b.Transactions.length = n - 3 * ((n + 2) / 3 - 1)) := by
  rcases hpack with ⟨hnil, hn⟩ | ⟨pre, last, hh, hall, h1, h3, hn⟩
  · subst hnil
    subst hn
    refine ⟨rfl, ?_, ?_⟩
    · intro i b hb; simp at hb
    · intro b hb; simp at hb
  · subst hh
    have hlen : (pre ++ [last]).length = (n + 2) / 3 := by
      simp only [List.length_append, List.length_singleton]
      omega
    refine ⟨hlen, ?_, ?_⟩
    · intro i b hb hi
      simp only [List.length_append, List.length_singleton] at hi
      rcases (getElem?_snoc pre last b i).1 hb with ⟨_, hb⟩ | ⟨hi2, _⟩
      · exact hall b (List.mem_iff_getElem?.2 ⟨i, hb⟩)
      · omega
    · intro b hb
      rw [List.getLast?_concat] at hb
      simp only [Option.some.injEq] at hb
      subst hb
      omega

theorem EntryOK_congr (L : Library) (db db2 : Store) (kv : String × Value)
    (h : db2 kv.1 = db kv.1) (hok : EntryOK L db kv) : EntryOK L db2 kv := by
  unfold EntryOK StoredVersion at *
  rw [h]
  exact hok

theorem Shape_pointer (bc : Blockchain) (hs : Shape bc) :
    ∀ p, bc.LatestBlock = some p → p < bc.heap.length := by
  intro p hp
  have h2 := hs.2
  rw [hp] at h2
  by_cases hz : bc.heap.length = 0
  · simp [hz] at h2
  · simp only [hz, if_false, Option.some.injEq] at h2
    omega

theorem recorded_ids (L : Library) (txn : GoMap) (db : Store) :
    ∀ (es : List (String × Value)) (txs : List Transaction),
      List.Forall₂ (Recorded L txn db) es txs → ∀ tx ∈ txs, tx.ID = GenerateTxnID L txn := by
  intro es txs h
  induction h with
  | nil => intro tx htx; cases htx
  | cons hr _ ih =>
    intro tx htx
    rcases List.mem_cons.1 htx with heq | hmem
    · rw [heq]; exact hr.2.2.2
    · exact ih tx hmem

theorem step_ids_and_store (L : Library) (bc bc2 : Blockchain) (now : Time) (txn : GoMap)
    (S : String → Prop) (hinv : Inv L bc) (h : AddTransaction L bc now txn = some bc2)
    (hS : ∀ b ∈ bc.heap, ∀ tx ∈ b.Transactions, S tx.ID) (hid : S (GenerateTxnID L txn)) :
    (∀ b ∈ bc2.heap, ∀ tx ∈ b.Transactions, S tx.ID) ∧
    (∀ k, ¬ S k → bc2.db k = bc.db k) := by
  obtain ⟨_, pre, b, txs, hold, _, _, _, _, hrec, hnew⟩ :=
    AddTransaction_inv L bc bc2 now txn hinv h
  have hpre : ∀ c ∈ pre, ∀ tx ∈ c.Transactions, S tx.ID := by
    intro c hc
    rcases hold with ⟨hheap, _, _⟩ | hheap
    · exact hS c (hheap ▸ hc)
    · exact hS c (by rw [hheap]; exact List.mem_append_left _ hc)
  have hb : ∀ tx ∈ b.Transactions, S tx.ID := by
    rcases hold with ⟨_, hnil, _⟩ | hheap
    · rw [hnil]; intro tx htx; cases htx
    · exact hS b (by rw [hheap]; simp)
  have hnewtx : ∀ tx ∈ b.Transactions ++ txs, S tx.ID := by
    intro tx htx
    rcases List.mem_append.1 htx with hm | hm
    · exact hb tx hm
    · rw [recorded_ids L txn bc.db txn txs hrec tx hm]; exact hid
  have hx : ∃ x, bc2.heap = pre ++ [x] ∧ x.Transactions = b.Transactions ++ txs := by
    rcases hnew with ⟨_, hheap2, _, _⟩ | ⟨_, hheap2, _, _⟩
    · exact ⟨_, hheap2, rfl⟩
    · exact ⟨_, hheap2, rfl⟩
  obtain ⟨x, hheap2, hxt⟩ := hx
  constructor
  · intro c hc
    rw [hheap2] at hc
    rcases List.mem_append.1 hc with hm | hm
    · exact hpre c hm
    · rw [List.mem_singleton.1 hm, hxt]; exact hnewtx
  · intro k hk
    rcases hnew with ⟨_, _, hdb2, _⟩ | ⟨_, _, hdb2, _⟩
    · rw [hdb2]
      exact commitWrites_frame L _ bc.db k
        (fun tx htx _ heq => hk (heq ▸ hnewtx tx htx))
    · rw [hdb2]

theorem AddTransactions_total (L : Library) (S : String → Prop) :
    ∀ (calls : List (Time × GoMap)) (bc : Blockchain), Inv L bc →
      (∀ b ∈ bc.heap, ∀ tx ∈ b.Transactions, S tx.ID) →
      (∀ c ∈ calls, S (GenerateTxnID L c.2)) →
      (∀ c ∈ calls, ∀ kv ∈ c.2, EntryOK L bc.db kv ∧ ¬ S kv.1) →
      ∃ s, AddTransactions L bc calls = some s := by
  intro calls
  induction calls with
  | nil => intro bc _ _ _ _; exact ⟨bc, rfl⟩
  | cons call rest ih =>
    intro bc hinv hS hids hok
    obtain ⟨bc1, hstep⟩ := AddTransaction_total L bc call.1 call.2 (Shape_pointer bc hinv.1)
      (fun kv hkv => (hok call (List.mem_cons_self _ _) kv hkv).1)
    obtain ⟨hS1, hdb1⟩ := step_ids_and_store L bc bc1 call.1 call.2 S hinv hstep hS
      (hids call (List.mem_cons_self _ _))
    obtain ⟨s, hs⟩ := ih bc1 (AddTransaction_inv L bc bc1 call.1 call.2 hinv hstep).1 hS1
      (fun c hc => hids c (List.mem_cons_of_mem _ hc))
      (fun c hc kv hkv =>
        have hboth := hok c (List.mem_cons_of_mem _ hc) kv hkv
        ⟨EntryOK_congr L bc.db bc1.db kv (hdb1 kv.1 hboth.2) hboth.1, hboth.2⟩)
    exact ⟨s, by simp [AddTransactions, hstep, hs]⟩

/-- C2: for calls that each carry a payload with exactly one sub-transaction,
every completed run of `N` calls from the empty chain leaves `ceil(N / 3)`
blocks, each block but the last with exactly three transactions and the last
with the remaining `N - 3 * (ceil(N / 3) - 1)`; and the run does complete when
the payloads are well formed, the store holds nothing or a decodable value
under each of their keys, and no key is the ID of one of the payloads. -/
theorem c2_block_count_and_sizes (L : Library) (db : Store) (calls : List (Time × GoMap))
    (hone : ∀ c ∈ calls, c.2.length = 1) :
    (∀ s, AddTransactions L (emptyBlockchain db) calls = some s →
      (chain s).length = (calls.length + 2) / 3 ∧
      (∀ (i : Nat) (b : Block), (chain s)[i]? = some b → i + 1 < (chain s).length →
        b.Transactions.length = 3) ∧
      (∀ b, (chain s).getLast? = some b →
        b.Transactions.length = calls.length - 3 * ((calls.length + 2) / 3 - 1))) ∧
    ((∀ c ∈ calls, ∀ kv ∈ c.2, EntryOK L db kv) →
      (∀ c ∈ calls, ∀ kv ∈ c.2, ∀ c2 ∈ calls, kv.1 ≠ GenerateTxnID L c2.2) →
      ∃ s, AddTransactions L (emptyBlockchain db) calls = some s) := by
  constructor
  · intro s h
    have hinv := Inv_reached L db calls s h
    have hpack := Packed_run L calls (emptyBlockchain db) s 0 (Inv_empty L db)
      (Or.inl ⟨rfl, rfl⟩) hone h
    rw [Nat.zero_add] at hpack
    rw [chain_eq_heap s hinv.1]
    exact Packed_counts calls.length s.heap hpack
  · intro hwf hkeys
    refine AddTransactions_total L (fun id => ∃ c ∈ calls, id = GenerateTxnID L c.2) calls
      (emptyBlockchain db) (Inv_empty L db) ?_ ?_ ?_
    · intro b hb; cases hb
    · intro c hc; exact ⟨c, hc, rfl⟩
    · intro c hc kv hkv
      refine ⟨hwf c hc kv hkv, ?_⟩
      rintro ⟨c2, hc2, heq⟩
      exact hkeys c hc kv hkv c2 hc2 heq

theorem c2_block_count_and_sizes_witness :
    (∀ c ∈ sampleCalls, c.2.length = 1) ∧
    (∀ s, AddTransactions sampleLibrary (emptyBlockchain seededStore) sampleCalls = some s →
      (chain s).length = (sampleCalls.length + 2) / 3 ∧
      (∀ (i : Nat) (b : Block), (chain s)[i]? = some b → i + 1 < (chain s).length →
        b.Transactions.length = 3) ∧
      (∀ b, (chain s).getLast? = some b →
        b.Transactions.length = sampleCalls.length - 3 * ((sampleCalls.length + 2) / 3 - 1))) ∧
    ((∀ c ∈ sampleCalls, ∀ kv ∈ c.2, EntryOK sampleLibrary seededStore kv) →
      (∀ c ∈ sampleCalls, ∀ kv ∈ c.2, ∀ c2 ∈ sampleCalls,
        kv.1 ≠ GenerateTxnID sampleLibrary c2.2) →
      ∃ s, AddTransactions sampleLibrary (emptyBlockchain seededStore) sampleCalls = some s) :=
  ⟨by decide, c2_block_count_and_sizes sampleLibrary seededStore sampleCalls (by decide)⟩

/-! ## Instances of the single-call claims -/

theorem c6_valid_iff_stored_version_equal_witness :
    (∀ kv ∈ singlePayload "SIM1" f64Two, EntryOK sampleLibrary seededStore kv) ∧
    ∃ b1 txs,
      PushValidTransaction sampleLibrary (freshBlock 0 "0x000" 1) (singlePayload "SIM1" f64Two)
        seededStore = some b1 ∧
      b1 = { freshBlock 0 "0x000" 1 with
        Transactions := (freshBlock 0 "0x000" 1).Transactions ++ txs } ∧
      List.Forall₂ (fun kv tx =>
        kv.2 = Value.map tx.TxData ∧
        assertFloat64 (tx.TxData.lookup "ver") = some tx.Version ∧
        (tx.Valid = true ↔
          ∃ sv, StoredVersion sampleLibrary seededStore kv.1 sv ∧
            Float64.eq sv tx.Version = true) ∧
        (seededStore kv.1 = none → tx.Valid = false) ∧
        (∀ sv, StoredVersion sampleLibrary seededStore kv.1 sv →
          Float64.eq sv tx.Version = false → tx.Valid = false) ∧
        (∀ (b2 : Block) (txn2 : GoMap), ∃ tx2,
          pushEntry sampleLibrary txn2 seededStore b2 kv =
            some { b2 with Transactions := b2.Transactions ++ [tx2] } ∧
          tx2.Valid = tx.Valid)) (singlePayload "SIM1" f64Two) txs :=
  ⟨EntryOK_singlePayload_seeded "SIM1" f64Two (Or.inr rfl),
    c6_valid_iff_stored_version_equal sampleLibrary (freshBlock 0 "0x000" 1)
      (singlePayload "SIM1" f64Two) seededStore
      (EntryOK_singlePayload_seeded "SIM1" f64Two (Or.inr rfl))⟩

theorem sampleThree_reached :
    AddTransaction sampleLibrary sampleTwo 3 (singlePayload "SIM9" f64One) = some sampleThree :=
  eq_some_getD _ _ (by decide)

theorem c7_store_changes_only_at_valid_ids_witness :
    AddTransaction sampleLibrary sampleTwo 3 (singlePayload "SIM9" f64One) = some sampleThree ∧
    ((sampleThree.BlockChannel = sampleTwo.BlockChannel ∨
        ∃ p, sampleThree.BlockChannel = sampleTwo.BlockChannel ++ [p]) ∧
      (sampleThree.BlockChannel = sampleTwo.BlockChannel → sampleThree.db = sampleTwo.db) ∧
      (∀ k, sampleThree.db k ≠ sampleTwo.db k →
        ∃ p b tx, sampleThree.BlockChannel = sampleTwo.BlockChannel ++ [p] ∧
          sampleThree.heap[p]? = some b ∧ b.Status = BlockStatus.Committed ∧
          tx ∈ b.Transactions ∧ tx.Valid = true ∧ tx.ID = k)) ∧
    sampleThree.BlockChannel = [0] ∧ sampleThree.db "SIM2" = seededStore "SIM2" :=
  ⟨sampleThree_reached,
    c7_store_changes_only_at_valid_ids sampleLibrary sampleTwo sampleThree 3
      (singlePayload "SIM9" f64One) sampleThree_reached,
    by decide, by decide⟩

/-! ## The ledger reader -/

theorem fetchLoop_skip (n : Nat) :
    ∀ (pre : List Block) (rest : List LogRecord), (∀ c ∈ pre, c.BlockNumber ≠ n) →
      fetchLoop n (pre.map LogRecord.block ++ rest) = fetchLoop n rest := by
  intro pre
  induction pre with
  | nil => intro rest _; rfl
  | cons c t ih =>
    intro rest h
    have hc : c.BlockNumber ≠ n := h c (List.mem_cons_self _ _)
    simp only [List.map_cons, List.cons_append, fetchLoop, if_neg hc]
    exact ih rest (fun d hd => h d (List.mem_cons_of_mem _ hd))

theorem fetchAllLoop_blocks :
    ∀ (bs : List Block) (acc : Option (List Block)),
      sliceElems (fetchAllLoop acc (bs.map LogRecord.block)) = sliceElems acc ++ bs := by
  intro bs
  induction bs with
  | nil => intro acc; simp [fetchAllLoop]
  | cons b t ih =>
    intro acc
    simp only [List.map_cons, fetchAllLoop]
    rw [ih]
    simp [sliceElems]

theorem fetchAllLoop_nonempty :
    ∀ (bs : List Block) (acc : List Block),
      fetchAllLoop (some acc) (bs.map LogRecord.block) = some (acc ++ bs) := by
  intro bs
  induction bs with
  | nil => intro acc; simp [fetchAllLoop]
  | cons b t ih =>
    intro acc
    simp only [List.map_cons, fetchAllLoop, Option.getD_some]
    rw [ih]
    simp

theorem fetchAllLoop_malformed :
    ∀ (pre : List Block) (acc : Option (List Block)) (rest : List LogRecord),
      fetchAllLoop acc (pre.map LogRecord.block ++ LogRecord.malformed :: rest) = none := by
  intro pre
  induction pre with
  | nil => intro acc rest; rfl
  | cons b t ih =>
    intro acc rest
    simp only [List.map_cons, List.cons_append, fetchAllLoop]
    exact ih _ rest

theorem fetchAllLoop_closer :
    ∀ (pre : List Block) (acc : List Block) (rest : List LogRecord),
      fetchAllLoop (some acc) (pre.map LogRecord.block ++ LogRecord.closer :: rest) =
        some (acc ++ pre) := by
  intro pre
  induction pre with
  | nil => intro acc rest; simp [fetchAllLoop]
  | cons b t ih =>
    intro acc rest
    simp only [List.map_cons, List.cons_append, fetchAllLoop, Option.getD_some]
    exact (ih (acc ++ [b]) rest).trans (by simp)

/-- C19 (as amended): `FetchBlockDetails(n)` returns the first record numbered
`n` when every record before it decodes, whatever follows it; it returns nil
when a malformed record (one on which `Decode` fails, or one that begins with a
closing brace or bracket) comes before any record numbered `n`, when no record
is numbered `n`, and when the ledger cannot be opened. -/
theorem c19_fetch_first_match_or_nil (n : Nat) :
    (∀ (pre : List Block) (b : Block) (rest : List LogRecord),
      (∀ c ∈ pre, c.BlockNumber ≠ n) → b.BlockNumber = n →
      FetchBlockDetails (some (pre.map LogRecord.block ++ LogRecord.block b :: rest)) n =
        some b) ∧
    (∀ (pre : List Block) (rest : List LogRecord), (∀ c ∈ pre, c.BlockNumber ≠ n) →
      FetchBlockDetails (some (pre.map LogRecord.block ++ LogRecord.malformed :: rest)) n =
        none) ∧
    (∀ (pre : List Block) (rest : List LogRecord), (∀ c ∈ pre, c.BlockNumber ≠ n) →
      FetchBlockDetails (some (pre.map LogRecord.block ++ LogRecord.closer :: rest)) n =
        none) ∧
    (∀ (pre : List Block), (∀ c ∈ pre, c.BlockNumber ≠ n) →
      FetchBlockDetails (some (pre.map LogRecord.block)) n = none) ∧
    FetchBlockDetails none n = none := by
  refine ⟨?_, ?_, ?_, ?_, rfl⟩
  · intro pre b rest hpre hb
    simp only [FetchBlockDetails]
    rw [fetchLoop_skip n pre _ hpre]
    simp [fetchLoop, hb]
  · intro pre rest hpre
    simp only [FetchBlockDetails]
    rw [fetchLoop_skip n pre _ hpre]
    rfl
  · intro pre rest hpre
    simp only [FetchBlockDetails]
    rw [fetchLoop_skip n pre _ hpre]
    rfl
  · intro pre hpre
    have := fetchLoop_skip n pre [] hpre
    simp only [List.append_nil] at this
    simp only [FetchBlockDetails, this]
    rfl

/-- C19 (counterexample): the ledger holds block 1 followed by a malformed
record, and `FetchBlockDetails(1)` returns block 1, not nil. -/
theorem c19_match_before_malformed_record :
    tornLedger = some [LogRecord.block (freshBlock 0 "0x000" 1), LogRecord.malformed] ∧
    (FetchBlockDetails tornLedger 1).map (fun b => b.BlockNumber) = some 1 :=
  ⟨rfl, by decide⟩

theorem FetchAllBlocks_decoding :
    (∀ bs : List Block, sliceElems (FetchAllBlocks (some (bs.map LogRecord.block))) = bs) ∧
    (∀ (b : Block) (bs : List Block),
      FetchAllBlocks (some ((b :: bs).map LogRecord.block)) = some (b :: bs)) ∧
    (∀ (pre : List Block) (rest : List LogRecord),
      FetchAllBlocks (some (pre.map LogRecord.block ++ LogRecord.malformed :: rest)) = none) ∧
    FetchAllBlocks none = none := by
  refine ⟨?_, ?_, ?_, rfl⟩
  · intro bs
    simp only [FetchAllBlocks]
    rw [fetchAllLoop_blocks]
    simp [sliceElems]
  · intro b bs
    simp only [FetchAllBlocks, List.map_cons, fetchAllLoop, Option.getD_none, List.nil_append]
    rw [fetchAllLoop_nonempty]
    simp
  · intro pre rest
    exact fetchAllLoop_malformed pre none rest

/-- C20 (the code at the failing input): on a ledger of block 1, a line that
holds only a closing brace, and block 2, `FetchAllBlocks` returns the slice
with block 1 alone, neither nil nor all records; in general, when a record that
begins with a closing brace or bracket follows decodable records, the loop
ends there and those records are returned. -/
theorem c20_stray_closer_returns_blocks_read :
    strayLedger = some [LogRecord.block (freshBlock 0 "0x000" 1), LogRecord.closer,
      LogRecord.block (freshBlock 1 "" 2)] ∧
    FetchAllBlocks strayLedger = some [freshBlock 0 "0x000" 1] ∧
    (∀ (b : Block) (bs : List Block) (rest : List LogRecord),
      FetchAllBlocks (some ((b :: bs).map LogRecord.block ++ LogRecord.closer :: rest)) =
        some (b :: bs)) := by
  refine ⟨rfl, rfl, ?_⟩
  intro b bs rest
  simp only [FetchAllBlocks, List.map_cons, List.cons_append, fetchAllLoop, Option.getD_none,
    List.nil_append]
  exact (fetchAllLoop_closer bs [b] rest).trans (by simp)

/-! ## The persistence channel -/

theorem filterMap_range_take {α : Type} (h : List α) :
    ∀ m, m ≤ h.length → (List.range m).filterMap (fun p => h[p]?) = h.take m := by
  intro m
  induction m with
  | zero => intro _; simp
  | succ k ih =>
    intro hk
    rw [List.range_succ, List.filterMap_append, ih (by omega), List.take_succ]
    have hlt : k < h.length := by omega
    simp [List.getElem?_eq_getElem hlt]

theorem Linked_take_numbers (L : Library) (h : List Block) (hl : Linked L h) :
    ∀ m, m ≤ h.length → (h.take m).map (fun b => b.BlockNumber) = List.range' 1 m := by
  intro m
  induction m with
  | zero => intro _; simp
  | succ k ih =>
    intro hk
    have hlt : k < h.length := by omega
    rw [List.take_succ, List.map_append, ih (by omega), List.range'_1_concat,
      List.getElem?_eq_getElem hlt]
    have hnum := (hl.1 k h[k] (List.getElem?_eq_getElem hlt)).1
    simp [hnum, Nat.add_comm]

theorem Linked_filter_committed (L : Library) (h : List Block) (hl : Linked L h) :
    h.filter isCommitted = h.take (h.filter isCommitted).length := by
  rcases List.eq_nil_or_concat h with hnil | ⟨pre, l, hcons⟩
  · simp [hnil]
  · rw [List.concat_eq_append] at hcons
    subst hcons
    have hall := Linked_init_committed L pre l hl
    rw [List.filter_append, filter_committed_eq_self pre hall]
    by_cases hc : isCommitted l = true
    · simp [hc]
    · simp [hc]

theorem sentBlocks_eq (L : Library) (s : Blockchain) (hinv : Inv L s) :
    sentBlocks s = (chain s).filter isCommitted := by
  obtain ⟨hshape, hlk, hch⟩ := hinv
  rw [chain_eq_heap s hshape]
  unfold sentBlocks
  rw [hch, filterMap_range_take s.heap _ (List.length_filter_le _ _)]
  exact (Linked_filter_committed L s.heap hlk).symm

theorem sentBlocks_numbers (L : Library) (s : Blockchain) (hinv : Inv L s) :
    (sentBlocks s).map (fun b => b.BlockNumber) =
      List.range' 1 ((chain s).filter isCommitted).length := by
  obtain ⟨hshape, hlk, hch⟩ := hinv
  rw [chain_eq_heap s hshape]
  unfold sentBlocks
  rw [hch, filterMap_range_take s.heap _ (List.length_filter_le _ _)]
  exact Linked_take_numbers L s.heap hlk _ (List.length_filter_le _ _)

theorem ListenForBlocks_all_written (L : Library) :
    ∀ (bs : List Block) (ledger : Bytes),
      ListenForBlocks L ledger (bs.map (fun b => (b, true))) =
        ledger ++ bs.flatMap (fun b => L.jsonMarshalBlock b ++ [10]) := by
  intro bs
  induction bs with
  | nil => intro ledger; simp [ListenForBlocks]
  | cons b t ih =>
    intro ledger
    simp only [List.map_cons, ListenForBlocks, WriteBlockToFile, if_true, List.flatMap_cons]
    rw [ih]
    simp

/-- C13: after every sequence of calls from the empty chain, the blocks sent
on `BlockChannel` are the committed blocks of the chain in chain order, their
block numbers are `1, 2, ..., m` for `m` the number of committed blocks, and
`ListenForBlocks`, receiving them in that order with every write succeeding,
appends their serializations to the ledger in that order. -/
theorem c13_sent_blocks_in_order (L : Library) (db : Store) (calls : List (Time × GoMap))
    (s : Blockchain) (ledger : Bytes)
    (h : AddTransactions L (emptyBlockchain db) calls = some s) :
    sentBlocks s = (chain s).filter isCommitted ∧
    (sentBlocks s).map (fun b => b.BlockNumber) =
      List.range' 1 ((chain s).filter isCommitted).length ∧
    ListenForBlocks L ledger ((sentBlocks s).map (fun b => (b, true))) =
      ledger ++ (sentBlocks s).flatMap (fun b => L.jsonMarshalBlock b ++ [10]) := by
  have hinv := Inv_reached L db calls s h
  exact ⟨sentBlocks_eq L s hinv, sentBlocks_numbers L s hinv,
    ListenForBlocks_all_written L _ ledger⟩

theorem c13_sent_blocks_in_order_witness :
    AddTransactions sampleLibrary (emptyBlockchain seededStore) sampleCalls = some sampleState ∧
    (sentBlocks sampleState = (chain sampleState).filter isCommitted ∧
    (sentBlocks sampleState).map (fun b => b.BlockNumber) =
      List.range' 1 ((chain sampleState).filter isCommitted).length ∧
    ListenForBlocks sampleLibrary [] ((sentBlocks sampleState).map (fun b => (b, true))) =
      [] ++ (sentBlocks sampleState).flatMap (fun b => sampleLibrary.jsonMarshalBlock b ++ [10])) ∧
    (sentBlocks sampleState).map (fun b => b.BlockNumber) = [1] :=
  ⟨sampleState_reached,
    c13_sent_blocks_in_order sampleLibrary seededStore sampleCalls sampleState []
      sampleState_reached,
    by decide⟩

/-! ## The records a call appends -/

theorem AddTransaction_records (L : Library) (bc bc2 : Blockchain) (now : Time) (txn : GoMap)
    (h : AddTransaction L bc now txn = some bc2) :
    ∃ txs, Appends bc bc2 now txs ∧ List.Forall₂ (Recorded L txn bc.db) txn txs := by
  obtain ⟨bc1, p, b, b1, he, hl, hp, hpush, hcase⟩ := AddTransaction_some L bc bc2 now txn h
  obtain ⟨txs, hrec, hb1⟩ := pushLoop_some L txn bc1.db txn b b1 hpush
  rw [(ensureBlock_db bc bc1 now he).1] at hrec
  have hlt : p < bc1.heap.length := (List.getElem?_eq_some.1 hp).1
  refine ⟨txs, ?_, hrec⟩
  rcases hcase with ⟨_, h2⟩ | ⟨_, h2⟩
  · refine ⟨bc1, p, b, sealBlock L b1, he, hl, hp, ?_, ?_, ?_⟩
    · rw [h2]; exact hl
    · rw [h2]; simp [List.getElem?_set, hlt]
    · rw [hb1]; rfl
  · refine ⟨bc1, p, b, b1, he, hl, hp, ?_, ?_, ?_⟩
    · rw [h2]; exact hl
    · rw [h2]; simp [List.getElem?_set, hlt]
    · rw [hb1]

/-- C11: for a payload whose sub-payloads are maps with a `float64` field
`ver`, over a store whose values under the payload keys decode, `AddTransaction`
completes and appends exactly one record per entry, in the order of the
entries, to the end of the latest block, whose earlier records are unchanged;
the record of an entry has the sub-payload as `TxData` and its declared `ver`
as `Version`, whether it is valid or not. -/
theorem c11_one_record_per_entry (L : Library) (bc : Blockchain) (now : Time) (txn : GoMap)
    (hptr : ∀ p, bc.LatestBlock = some p → p < bc.heap.length)
    (hok : ∀ kv ∈ txn, EntryOK L bc.db kv) :
    ∃ bc2 txs, AddTransaction L bc now txn = some bc2 ∧ Appends bc bc2 now txs ∧
      txs.length = txn.length ∧
      List.Forall₂ (fun kv tx =>
        kv.2 = Value.map tx.TxData ∧
        assertFloat64 (tx.TxData.lookup "ver") = some tx.Version) txn txs := by
  obtain ⟨bc2, h⟩ := AddTransaction_total L bc now txn hptr hok
  obtain ⟨txs, happ, hrec⟩ := AddTransaction_records L bc bc2 now txn h
  exact ⟨bc2, txs, h, happ, hrec.length_eq.symm, hrec.imp (fun _ _ hr => ⟨hr.1, hr.2.1⟩)⟩

theorem c11_one_record_per_entry_witness :
    (∀ p, (emptyBlockchain seededStore).LatestBlock = some p →
      p < (emptyBlockchain seededStore).heap.length) ∧
    (∀ kv ∈ singlePayload "SIM1" f64Two,
      EntryOK sampleLibrary (emptyBlockchain seededStore).db kv) ∧
    ∃ bc2 txs,
      AddTransaction sampleLibrary (emptyBlockchain seededStore) 1
        (singlePayload "SIM1" f64Two) = some bc2 ∧
      Appends (emptyBlockchain seededStore) bc2 1 txs ∧
      txs.length = (singlePayload "SIM1" f64Two).length ∧
      List.Forall₂ (fun kv tx =>
        kv.2 = Value.map tx.TxData ∧
        assertFloat64 (tx.TxData.lookup "ver") = some tx.Version)
        (singlePayload "SIM1" f64Two) txs :=
  ⟨fun p hp => by simp [emptyBlockchain] at hp,
    EntryOK_singlePayload_seeded "SIM1" f64Two (Or.inr rfl),
    c11_one_record_per_entry sampleLibrary (emptyBlockchain seededStore) 1
      (singlePayload "SIM1" f64Two) (fun p hp => by simp [emptyBlockchain] at hp)
      (EntryOK_singlePayload_seeded "SIM1" f64Two (Or.inr rfl))⟩

/-- C12: all records appended by one call carry the same ID, `GenerateTxnID` of
the whole payload, which is the hex encoding of the SHA-256 digest of the
payload's serialization; two calls with the same payload, in any states and at
any times, give records with the same ID, and a payload with the same
serialization (the same content visited in another order, when the serializer
sorts the keys) has the same ID. -/
theorem c12_one_id_per_payload (L : Library) (bcA bcA2 bcB bcB2 : Blockchain)
    (nowA nowB : Time) (txn : GoMap)
    (hA : AddTransaction L bcA nowA txn = some bcA2)
    (hB : AddTransaction L bcB nowB txn = some bcB2) :
    ∃ txsA txsB, Appends bcA bcA2 nowA txsA ∧ Appends bcB bcB2 nowB txsB ∧
      txsA.length = txn.length ∧ txsB.length = txn.length ∧
      (∀ tx ∈ txsA ++ txsB, tx.ID = GenerateTxnID L txn) ∧
      GenerateTxnID L txn = EncodeToString (L.sha256Sum (L.jsonMarshalMap txn)) ∧
      (∀ txn2, L.jsonMarshalMap txn2 = L.jsonMarshalMap txn →
        GenerateTxnID L txn2 = GenerateTxnID L txn) := by
  obtain ⟨txsA, happA, hrecA⟩ := AddTransaction_records L bcA bcA2 nowA txn hA
  obtain ⟨txsB, happB, hrecB⟩ := AddTransaction_records L bcB bcB2 nowB txn hB
  refine ⟨txsA, txsB, happA, happB, hrecA.length_eq.symm, hrecB.length_eq.symm, ?_, rfl, ?_⟩
  · intro tx htx
    rcases List.mem_append.1 htx with hm | hm
    · exact recorded_ids L txn bcA.db txn txsA hrecA tx hm
    · exact recorded_ids L txn bcB.db txn txsB hrecB tx hm
  · intro txn2 hser
    unfold GenerateTxnID
    rw [hser]

theorem pairFirst_reached :
    AddTransaction sampleLibrary (emptyBlockchain seededStore) 7 twoEntries = some pairFirst :=
  eq_some_getD _ _ (by decide)

theorem pairSecond_reached :
    AddTransaction sampleLibrary sampleState 8 twoEntries = some pairSecond :=
  eq_some_getD _ _ (by decide)

theorem c12_one_id_per_payload_witness :
    AddTransaction sampleLibrary (emptyBlockchain seededStore) 7 twoEntries = some pairFirst ∧
    AddTransaction sampleLibrary sampleState 8 twoEntries = some pairSecond ∧
    ∃ txsA txsB, Appends (emptyBlockchain seededStore) pairFirst 7 txsA ∧
      Appends sampleState pairSecond 8 txsB ∧
      txsA.length = twoEntries.length ∧ txsB.length = twoEntries.length ∧
      (∀ tx ∈ txsA ++ txsB, tx.ID = GenerateTxnID sampleLibrary twoEntries) ∧
      GenerateTxnID sampleLibrary twoEntries =
        EncodeToString (sampleLibrary.sha256Sum (sampleLibrary.jsonMarshalMap twoEntries)) ∧
      (∀ txn2, sampleLibrary.jsonMarshalMap txn2 = sampleLibrary.jsonMarshalMap twoEntries →
        GenerateTxnID sampleLibrary txn2 = GenerateTxnID sampleLibrary twoEntries) :=
  ⟨pairFirst_reached, pairSecond_reached,
    c12_one_id_per_payload sampleLibrary (emptyBlockchain seededStore) pairFirst sampleState
      pairSecond 7 8 twoEntries pairFirst_reached pairSecond_reached⟩

/-! ## Starting a new block -/

theorem ensureBlock_fresh (bc : Blockchain) (now : Time) (hs : Shape bc) (hneed : NeedsBlock bc) :
    ensureBlock bc now = some { bc with
      heap := bc.heap ++ [freshBlock bc.heap.length (prevHashOf bc.heap) now]
      LatestBlock := some bc.heap.length
      Blocks := bc.Blocks ++ [bc.heap.length] } := by
  have hcreate := CreateNewBlock_shape bc now hs
  rcases hneed with hnone | ⟨p, latest, hl, hp, hfull⟩
  · simp only [ensureBlock, hnone, hcreate]
  · have hge : latest.Transactions.length ≥ latest.BlockSize := hfull
    simp only [ensureBlock, hl, hp, hcreate, if_pos hge]

theorem ensureBlock_keep (bc : Blockchain) (now : Time) (hroom : HasRoom bc) :
    ensureBlock bc now = some bc := by
  obtain ⟨p, latest, hl, hp, hlt⟩ := hroom
  have hnot : ¬ latest.Transactions.length ≥ latest.BlockSize := by omega
  simp only [ensureBlock, hl, hp, if_neg hnot]

theorem AddTransaction_pointers (L : Library) (bc bc2 : Blockchain) (now : Time) (txn : GoMap)
    (h : AddTransaction L bc now txn = some bc2) :
    ∃ bc1, ensureBlock bc now = some bc1 ∧ bc2.Blocks = bc1.Blocks ∧
      bc2.LatestBlock = bc1.LatestBlock := by
  obtain ⟨bc1, p, b, b1, he, _, _, _, hcase⟩ := AddTransaction_some L bc bc2 now txn h
  rcases hcase with ⟨_, h2⟩ | ⟨_, h2⟩ <;> exact ⟨bc1, he, by rw [h2], by rw [h2]⟩

theorem Shape_blocks_length (bc : Blockchain) (hs : Shape bc) :
    bc.Blocks.length = bc.heap.length := by
  rw [hs.1, List.length_range]

theorem Shape_latest_is_last (bc : Blockchain) (hs : Shape bc) (hne : bc.heap ≠ []) :
    ∃ p, bc.LatestBlock = some p ∧ bc.Blocks.getLast? = some p := by
  obtain ⟨hB, hL⟩ := hs
  have hpos : bc.heap.length ≠ 0 := fun h0 => hne (List.length_eq_zero.1 h0)
  obtain ⟨k, hk⟩ := Nat.exists_eq_succ_of_ne_zero hpos
  refine ⟨k, ?_, ?_⟩
  · rw [hL, if_neg hpos, hk]; rfl
  · rw [hB, hk, List.range_succ, List.getLast?_concat]

/-- C18: in every state reached from the empty chain, a completed call of
`AddTransaction` adds exactly one block to `Blocks` when there was no latest
block or the latest block's transaction count had reached its `BlockSize`, and
none otherwise; the added block starts with `BlockNumber` one more than the
previous number of blocks, status `Pending`, `BlockSize` 3, an empty
`BlockHash`, no transactions, the clock reading as timestamp and the previous
latest hash (or `0x000`) as `PrevBlockHash`; and after the call `LatestBlock`
is the last element of `Blocks`. -/
theorem c18_new_block_when_needed (L : Library) (db : Store) (calls : List (Time × GoMap))
    (bc bc2 : Blockchain) (now : Time) (txn : GoMap)
    (hreach : AddTransactions L (emptyBlockchain db) calls = some bc)
    (h : AddTransaction L bc now txn = some bc2) :
    (NeedsBlock bc →
      ∃ bc1 p nb, ensureBlock bc now = some bc1 ∧ bc2.Blocks = bc.Blocks ++ [p] ∧
        bc1.heap[p]? = some nb ∧ nb.BlockNumber = bc.Blocks.length + 1 ∧
        nb.Status = BlockStatus.Pending ∧ nb.BlockSize = 3 ∧ nb.BlockHash = "" ∧
        nb.Transactions = [] ∧ nb.Timestamp = now ∧
        nb.PrevBlockHash = prevHashOf (chain bc)) ∧
    (HasRoom bc → bc2.Blocks = bc.Blocks) ∧
    (NeedsBlock bc ∨ HasRoom bc) ∧
    (∃ p, bc2.LatestBlock = some p ∧ bc2.Blocks.getLast? = some p) := by
  have hinv := Inv_reached L db calls bc hreach
  obtain ⟨hinv2, pre, b, txs, _, _, _, _, _, _, hnew⟩ := AddTransaction_inv L bc bc2 now txn hinv h
  obtain ⟨bc1, he, hB, _⟩ := AddTransaction_pointers L bc bc2 now txn h
  refine ⟨?_, ?_, ?_, ?_⟩
  · intro hneed
    have hf := ensureBlock_fresh bc now hinv.1 hneed
    refine ⟨_, bc.heap.length, freshBlock bc.heap.length (prevHashOf bc.heap) now, hf, ?_, ?_,
      ?_, rfl, rfl, rfl, rfl, rfl, ?_⟩
    · rw [hf] at he
      rw [hB, ← Option.some.inj he]
    · simp
    · rw [Shape_blocks_length bc hinv.1]; rfl
    · rw [chain_eq_heap bc hinv.1]; rfl
  · intro hroom
    rw [ensureBlock_keep bc now hroom] at he
    rw [hB, ← Option.some.inj he]
  · cases hl : bc.LatestBlock with
    | none => exact Or.inl (Or.inl hl)
    | some p =>
      have hp := Shape_pointer bc hinv.1 p hl
      by_cases hfull : (bc.heap[p]).BlockSize ≤ (bc.heap[p]).Transactions.length
      · exact Or.inl (Or.inr ⟨p, bc.heap[p], hl, List.getElem?_eq_getElem hp, hfull⟩)
      · exact Or.inr ⟨p, bc.heap[p], hl, List.getElem?_eq_getElem hp, by omega⟩
  · apply Shape_latest_is_last bc2 hinv2.1
    rcases hnew with ⟨_, hheap2, _, _⟩ | ⟨_, hheap2, _, _⟩ <;> rw [hheap2] <;> simp

theorem sampleTwo_reached :
    AddTransactions sampleLibrary (emptyBlockchain seededStore) (sampleCalls.take 2) =
      some sampleTwo :=
  eq_some_getD _ _ (by decide)

theorem c18_new_block_when_needed_witness :
    AddTransactions sampleLibrary (emptyBlockchain seededStore) (sampleCalls.take 2) =
      some sampleTwo ∧
    AddTransaction sampleLibrary sampleTwo 3 (singlePayload "SIM9" f64One) = some sampleThree ∧
    ((NeedsBlock sampleTwo →
      ∃ bc1 p nb, ensureBlock sampleTwo 3 = some bc1 ∧ sampleThree.Blocks = sampleTwo.Blocks ++ [p] ∧
        bc1.heap[p]? = some nb ∧ nb.BlockNumber = sampleTwo.Blocks.length + 1 ∧
        nb.Status = BlockStatus.Pending ∧ nb.BlockSize = 3 ∧ nb.BlockHash = "" ∧
        nb.Transactions = [] ∧ nb.Timestamp = 3 ∧
        nb.PrevBlockHash = prevHashOf (chain sampleTwo)) ∧
    (HasRoom sampleTwo → sampleThree.Blocks = sampleTwo.Blocks) ∧
    (NeedsBlock sampleTwo ∨ HasRoom sampleTwo) ∧
    (∃ p, sampleThree.LatestBlock = some p ∧ sampleThree.Blocks.getLast? = some p)) :=
  ⟨sampleTwo_reached, sampleThree_reached,
    c18_new_block_when_needed sampleLibrary seededStore (sampleCalls.take 2) sampleTwo
      sampleThree 3 (singlePayload "SIM9" f64One) sampleTwo_reached sampleThree_reached⟩

/-! ## The hash of a committed block -/

theorem charToNat_injective : Function.Injective Char.toNat := by
  intro a b h
  apply Char.ext
  apply UInt32.ext
  exact h

theorem verboseMarshalBlock_prev (x y : Block)
    (h : verboseMarshalBlock x = verboseMarshalBlock y) : x.PrevBlockHash = y.PrevBlockHash := by
  unfold verboseMarshalBlock at h
  simp only [List.cons_append, List.cons.injEq] at h
  obtain ⟨hlen, htail⟩ := h
  have hlen2 : (x.PrevBlockHash.data.map Char.toNat).length =
      (y.PrevBlockHash.data.map Char.toNat).length := by
    rw [List.length_map, List.length_map]
    exact hlen
  have hmap := (List.append_inj htail hlen2).1
  have hdata : x.PrevBlockHash.data = y.PrevBlockHash.data :=
    List.map_injective_iff.2 charToNat_injective hmap
  exact String.ext hdata

theorem committed_hash (L : Library) (db : Store) (calls : List (Time × GoMap)) (s : Blockchain)
    (h : AddTransactions L (emptyBlockchain db) calls = some s) :
    ∀ b ∈ chain s, b.Status = BlockStatus.Committed →
      b.BlockHash = CalculateBlockHash L { b with BlockHash := "" } := by
  obtain ⟨hshape, ⟨h1, _, _, _⟩, _⟩ := Inv_reached L db calls s h
  rw [chain_eq_heap s hshape]
  intro b hb hcom
  obtain ⟨i, hi⟩ := List.mem_iff_getElem?.1 hb
  exact (h1 i b hi).2.2.2.2 hcom

/-- C16 (as amended): in every state reached from the empty chain, the
`BlockHash` of a committed block is `CalculateBlockHash` of that block with its
`BlockHash` field reset to the empty string, which is the content hashed at
commit; hence two committed blocks that agree in number, transactions,
timestamp, previous hash and size carry the same `BlockHash`. -/
theorem c16_hash_of_content_at_commit (L : Library) (db db2 : Store)
    (calls calls2 : List (Time × GoMap)) (s s2 : Blockchain)
    (h : AddTransactions L (emptyBlockchain db) calls = some s)
    (h2 : AddTransactions L (emptyBlockchain db2) calls2 = some s2) :
    (∀ b ∈ chain s, b.Status = BlockStatus.Committed →
      CalculateBlockHash L { b with BlockHash := "" } = b.BlockHash) ∧
    (∀ b ∈ chain s, ∀ c ∈ chain s2, b.Status = BlockStatus.Committed →
      c.Status = BlockStatus.Committed → c.BlockNumber = b.BlockNumber →
      c.Transactions = b.Transactions → c.Timestamp = b.Timestamp →
      c.PrevBlockHash = b.PrevBlockHash → c.BlockSize = b.BlockSize →
      c.BlockHash = b.BlockHash) := by
  refine ⟨fun b hb hcom => (committed_hash L db calls s h b hb hcom).symm, ?_⟩
  intro b hb c hc hbcom hccom hn ht hts hp hsz
  rw [committed_hash L db calls s h b hb hbcom, committed_hash L db2 calls2 s2 h2 c hc hccom]
  have : ({ c with BlockHash := "" } : Block) = { b with BlockHash := "" } := by
    cases b; cases c; simp_all
  rw [this]

theorem verboseState_reached :
    AddTransactions verboseLibrary (emptyBlockchain seededStore) sampleCalls =
      some verboseState :=
  eq_some_getD _ _ (by decide)

theorem c16_hash_of_content_at_commit_witness :
    AddTransactions verboseLibrary (emptyBlockchain seededStore) sampleCalls =
      some verboseState ∧
    (∀ b ∈ chain verboseState, b.Status = BlockStatus.Committed →
      CalculateBlockHash verboseLibrary { b with BlockHash := "" } = b.BlockHash) ∧
    (∀ b ∈ chain verboseState, ∀ c ∈ chain verboseState, b.Status = BlockStatus.Committed →
      c.Status = BlockStatus.Committed → c.BlockNumber = b.BlockNumber →
      c.Transactions = b.Transactions → c.Timestamp = b.Timestamp →
      c.PrevBlockHash = b.PrevBlockHash → c.BlockSize = b.BlockSize →
      c.BlockHash = b.BlockHash) :=
  ⟨verboseState_reached,
    c16_hash_of_content_at_commit verboseLibrary seededStore seededStore sampleCalls sampleCalls
      verboseState verboseState verboseState_reached verboseState_reached⟩

set_option maxRecDepth 100000 in
/-- C16 (counterexample): after `sampleCalls`, with a library whose block
serialization writes out the `BlockHash` field, the first block is committed
and `CalculateBlockHash` over it as it stands in the chain is not the hash in
its `BlockHash` field. -/
theorem c16_recomputed_hash_differs :
    (chain verboseState).head?.map
      (fun b => (b.Status, decide (CalculateBlockHash verboseLibrary b = b.BlockHash))) =
    some (BlockStatus.Committed, false) := by
  decide

/-! ## The seeded store -/

theorem StoredVersion_congr (L : Library) (db db2 : Store) (key : String) (sv : Float64)
    (h : db2 key = db key) (hs : StoredVersion L db key sv) : StoredVersion L db2 key sv := by
  unfold StoredVersion at *
  rw [h]
  exact hs

theorem StoredVersion_put (L : Library) (db : Store) (key : String) (m : GoMap) (sv : Float64)
    (hrt : assertFloat64 ((L.jsonUnmarshalMap (L.jsonMarshalMap m)).lookup "ver") = some sv) :
    StoredVersion L (db.put key (L.jsonMarshalMap m)) key sv :=
  ⟨L.jsonMarshalMap m, by simp [Store.put], hrt⟩

theorem seedLoop_stored (L : Library)
    (hrt : ∀ i, assertFloat64 ((L.jsonUnmarshalMap (L.jsonMarshalMap (seedValue i))).lookup "ver") =
      some f64One) :
    ∀ (is : List Nat) (db : Store) (k : String),
      (k ∈ is.map simKey ∨ StoredVersion L db k f64One) →
      StoredVersion L (seedLoop L db is) k f64One := by
  intro is
  induction is with
  | nil =>
    intro db k h
    rcases h with h | h
    · simp at h
    · exact h
  | cons i rest ih =>
    intro db k h
    unfold seedLoop
    apply ih
    by_cases hk : k = simKey i
    · right
      rw [hk]
      exact StoredVersion_put L db (simKey i) (seedValue i) f64One (hrt i)
    · rcases h with h | h
      · simp only [List.map_cons, List.mem_cons] at h
        rcases h with h | h
        · exact absurd h hk
        · exact Or.inl h
      · right
        exact StoredVersion_congr L db _ k f64One (by simp [Store.put, hk]) h

theorem InitializeLevelDB_seeded (L : Library) (disk : Store)
    (hrt : ∀ i, assertFloat64 ((L.jsonUnmarshalMap (L.jsonMarshalMap (seedValue i))).lookup "ver") =
      some f64One) :
    ∀ i, 1 ≤ i → i ≤ 1000 → StoredVersion L (InitializeLevelDB L disk) (simKey i) f64One := by
  intro i h1 h2
  apply seedLoop_stored L hrt
  left
  exact List.mem_map.2 ⟨i, List.mem_range'_1.2 ⟨h1, by omega⟩, rfl⟩

theorem sampleLibrary_roundtrip :
    ∀ i, assertFloat64
      ((sampleLibrary.jsonUnmarshalMap (sampleLibrary.jsonMarshalMap (seedValue i))).lookup "ver") =
      some f64One := by
  intro i
  rfl

theorem scenarioStore_seeded :
    ∀ i, 1 ≤ i → i ≤ 10 → StoredVersion sampleLibrary scenarioStore (simKey i) f64One := by
  intro i h1 h2
  apply seedLoop_stored sampleLibrary sampleLibrary_roundtrip
  left
  exact List.mem_map.2 ⟨i, List.mem_range'_1.2 ⟨h1, by omega⟩, rfl⟩

/-! ## Keys and transaction IDs -/

theorem hexDigit_ne_S (n : Nat) : hexDigit n ≠ 'S' := by
  unfold hexDigit
  have hlt : n % 16 < 16 := Nat.mod_lt _ (by decide)
  generalize n % 16 = k at hlt
  interval_cases k <;> decide

theorem simKey_ne_hex (i : Nat) (bs : Bytes) : simKey i ≠ EncodeToString bs := by
  intro h
  have hdata : (simKey i).data = (EncodeToString bs).data := by rw [h]
  simp only [simKey, String.data_append, EncodeToString] at hdata
  cases bs with
  | nil => simp [hexChars] at hdata
  | cons b rest =>
    simp only [hexChars] at hdata
    have hhead : 'S' = hexDigit (b / 16) := by
      have := congrArg List.head? hdata
      simpa using this
    exact hexDigit_ne_S _ hhead.symm

/-! ## Runs in which every transaction is valid -/

theorem forall₂_mem_right {α β : Type} (R : α → β → Prop) :
    ∀ (l1 : List α) (l2 : List β), List.Forall₂ R l1 l2 → ∀ y ∈ l2, ∃ x ∈ l1, R x y := by
  intro l1 l2 h
  induction h with
  | nil => intro y hy; cases hy
  | cons hr _ ih =>
    intro y hy
    rcases List.mem_cons.1 hy with heq | hmem
    · exact ⟨_, List.mem_cons_self _ _, heq ▸ hr⟩
    · obtain ⟨x, hx, hxy⟩ := ih y hmem
      exact ⟨x, List.mem_cons_of_mem _ hx, hxy⟩

theorem step_all (L : Library) (bc bc2 : Blockchain) (now : Time) (txn : GoMap)
    (P : Transaction → Prop) (hinv : Inv L bc) (h : AddTransaction L bc now txn = some bc2)
    (hold : ∀ b ∈ bc.heap, ∀ tx ∈ b.Transactions, P tx)
    (hnew : ∀ kv ∈ txn, ∀ tx, Recorded L txn bc.db kv tx → P tx) :
    ∀ b ∈ bc2.heap, ∀ tx ∈ b.Transactions, P tx := by
  obtain ⟨_, pre, b, txs, hwas, _, _, _, _, hrec, hnext⟩ :=
    AddTransaction_inv L bc bc2 now txn hinv h
  have hpre : ∀ c ∈ pre, ∀ tx ∈ c.Transactions, P tx := by
    intro c hc
    rcases hwas with ⟨hheap, _, _⟩ | hheap
    · exact hold c (hheap ▸ hc)
    · exact hold c (by rw [hheap]; exact List.mem_append_left _ hc)
  have hb : ∀ tx ∈ b.Transactions, P tx := by
    rcases hwas with ⟨_, hnil, _⟩ | hheap
    · rw [hnil]; intro tx htx; cases htx
    · exact hold b (by rw [hheap]; simp)
  have hall : ∀ tx ∈ b.Transactions ++ txs, P tx := by
    intro tx htx
    rcases List.mem_append.1 htx with hm | hm
    · exact hb tx hm
    · obtain ⟨kv, hkv, hr⟩ := forall₂_mem_right _ txn txs hrec tx hm
      exact hnew kv hkv tx hr
  have hx : ∃ x, bc2.heap = pre ++ [x] ∧ x.Transactions = b.Transactions ++ txs := by
    rcases hnext with ⟨_, hheap2, _, _⟩ | ⟨_, hheap2, _, _⟩
    · exact ⟨_, hheap2, rfl⟩
    · exact ⟨_, hheap2, rfl⟩
  obtain ⟨x, hheap2, hxt⟩ := hx
  intro c hc
  rw [hheap2] at hc
  rcases List.mem_append.1 hc with hm | hm
  · exact hpre c hm
  · rw [List.mem_singleton.1 hm, hxt]; exact hall

theorem Recorded_valid (L : Library) (txn : GoMap) (db : Store) (kv : String × Value)
    (tx : Transaction) (m : GoMap) (v sv : Float64) (hr : Recorded L txn db kv tx)
    (hm : kv.2 = Value.map m) (hv : assertFloat64 (m.lookup "ver") = some v)
    (hs : StoredVersion L db kv.1 sv) (heq : Float64.eq sv v = true) : tx.Valid = true := by
  obtain ⟨h1, h2, h3, _⟩ := hr
  rw [hm] at h1
  have hdata : m = tx.TxData := Value.map.inj h1
  rw [← hdata, hv] at h2
  have hver : v = tx.Version := Option.some.inj h2
  rw [storeVerdict_of_stored L db kv.1 sv tx.Version hs, ← hver, heq] at h3
  exact (Option.some.inj h3).symm

theorem AddTransactions_valid (L : Library) (S : String → Prop) :
    ∀ (calls : List (Time × GoMap)) (bc : Blockchain), Inv L bc →
      (∀ b ∈ bc.heap, ∀ tx ∈ b.Transactions, S tx.ID) →
      (∀ b ∈ bc.heap, ∀ tx ∈ b.Transactions, tx.Valid = true) →
      (∀ c ∈ calls, S (GenerateTxnID L c.2)) →
      (∀ c ∈ calls, ∀ kv ∈ c.2, ¬ S kv.1 ∧
        ∃ m v sv, kv.2 = Value.map m ∧ assertFloat64 (m.lookup "ver") = some v ∧
          StoredVersion L bc.db kv.1 sv ∧ Float64.eq sv v = true) →
      ∃ s, AddTransactions L bc calls = some s ∧
        ∀ b ∈ s.heap, ∀ tx ∈ b.Transactions, tx.Valid = true := by
  intro calls
  induction calls with
  | nil => intro bc _ _ hval _ _; exact ⟨bc, rfl, hval⟩
  | cons call rest ih =>
    intro bc hinv hS hval hids hok
    have hcall := hok call (List.mem_cons_self _ _)
    obtain ⟨bc1, hstep⟩ := AddTransaction_total L bc call.1 call.2 (Shape_pointer bc hinv.1)
      (fun kv hkv => by
        obtain ⟨_, m, v, sv, hm, hv, hs, _⟩ := hcall kv hkv
        exact ⟨⟨m, v, hm, hv⟩, Or.inr ⟨sv, hs⟩⟩)
    obtain ⟨hS1, hdb1⟩ := step_ids_and_store L bc bc1 call.1 call.2 S hinv hstep hS
      (hids call (List.mem_cons_self _ _))
    have hval1 := step_all L bc bc1 call.1 call.2 (fun tx => tx.Valid = true) hinv hstep hval
      (fun kv hkv tx hr => by
        obtain ⟨_, m, v, sv, hm, hv, hs, heq⟩ := hcall kv hkv
        exact Recorded_valid L call.2 bc.db kv tx m v sv hr hm hv hs heq)
    obtain ⟨s, hs, hfin⟩ := ih bc1 (AddTransaction_inv L bc bc1 call.1 call.2 hinv hstep).1 hS1
      hval1 (fun c hc => hids c (List.mem_cons_of_mem _ hc))
      (fun c hc kv hkv => by
        obtain ⟨hnS, m, v, sv, hm, hv, hst, heq⟩ := hok c (List.mem_cons_of_mem _ hc) kv hkv
        exact ⟨hnS, m, v, sv, hm, hv,
          StoredVersion_congr L bc.db bc1.db kv.1 sv (hdb1 kv.1 hnS) hst, heq⟩)
    exact ⟨s, by simp [AddTransactions, hstep, hs], hfin⟩

/-! ## The ten-transaction scenario -/

theorem scenarioCalls_mem (clock : Nat → Time) (c : Time × GoMap)
    (hc : c ∈ scenarioCalls clock) :
    ∃ i, 1 ≤ i ∧ i ≤ 10 ∧
      c.2 = [(simKey i, Value.map [("val", Value.int i), ("ver", Value.float64 f64One)])] := by
  obtain ⟨i, hi, hci⟩ := List.mem_map.1 hc
  obtain ⟨h1, h2⟩ := List.mem_range'_1.1 hi
  exact ⟨i, h1, by omega, by rw [← hci]⟩

theorem Packed_ten (h : List Block) (hp : Packed 10 h) :
    ∃ b1 b2 b3 b4, h = [b1, b2, b3, b4] ∧ b1.Transactions.length = 3 ∧
      b2.Transactions.length = 3 ∧ b3.Transactions.length = 3 ∧ b4.Transactions.length = 1 := by
  rcases hp with ⟨_, hn⟩ | ⟨pre, last, hh, hall, h1, h3, hn⟩
  · omega
  · have hlen : pre.length = 3 := by omega
    obtain ⟨a, b, c, habc⟩ := List.length_eq_three.1 hlen
    subst habc
    refine ⟨a, b, c, last, by simpa using hh, hall a (by simp), hall b (by simp),
      hall c (by simp), ?_⟩
    simp only [List.length_cons, List.length_nil] at hn
    omega

theorem scenario_run (L : Library) (db : Store) (clock : Nat → Time)
    (hstore : ∀ i, 1 ≤ i → i ≤ 10 → StoredVersion L db (simKey i) f64One) :
    ∃ s b1 b2 b3 b4, AddTransactions L (emptyBlockchain db) (scenarioCalls clock) = some s ∧
      Inv L s ∧ chain s = [b1, b2, b3, b4] ∧ b1.Transactions.length = 3 ∧
      b2.Transactions.length = 3 ∧ b3.Transactions.length = 3 ∧ b4.Transactions.length = 1 ∧
      ∀ b ∈ chain s, ∀ tx ∈ b.Transactions, tx.Valid = true := by
  obtain ⟨s, hs, hval⟩ := AddTransactions_valid L (fun id => ∃ bs, id = EncodeToString bs)
    (scenarioCalls clock) (emptyBlockchain db) (Inv_empty L db)
    (fun b hb => by cases hb) (fun b hb => by cases hb)
    (fun c _ => ⟨_, rfl⟩)
    (fun c hc kv hkv => by
      obtain ⟨i, h1, h10, hpay⟩ := scenarioCalls_mem clock c hc
      rw [hpay, List.mem_singleton] at hkv
      subst hkv
      refine ⟨?_, _, f64One, f64One, rfl, rfl, hstore i h1 h10, by decide⟩
      rintro ⟨bs, hbs⟩
      exact simKey_ne_hex i bs hbs)
  have hinv := Inv_reached L db (scenarioCalls clock) s hs
  have hpack := Packed_run L (scenarioCalls clock) (emptyBlockchain db) s 0 (Inv_empty L db)
    (Or.inl ⟨rfl, rfl⟩)
    (fun c hc => by
      obtain ⟨i, _, _, hpay⟩ := scenarioCalls_mem clock c hc
      rw [hpay]; rfl) hs
  have hlen : (scenarioCalls clock).length = 10 := by simp [scenarioCalls]
  rw [hlen] at hpack
  obtain ⟨b1, b2, b3, b4, hh, h1, h2, h3, h4⟩ := Packed_ten s.heap hpack
  rw [← chain_eq_heap s hinv.1] at hh hval
  exact ⟨s, b1, b2, b3, b4, hs, hinv, hh, h1, h2, h3, h4, hval⟩

/-- C14: over a store that holds version 1.0 under each of `SIM1` to `SIM10`,
the ten single-entry calls keyed `SIM1`, ..., `SIM10`, each declaring version
1.0, complete from the empty chain and leave exactly four blocks with 3, 3, 3
and 1 transactions, every transaction marked valid, and the first block with
number 1 and `PrevBlockHash` equal to `0x000`. -/
theorem c14_scenario_four_blocks (L : Library) (db : Store) (clock : Nat → Time)
    (hstore : ∀ i, 1 ≤ i → i ≤ 10 → StoredVersion L db (simKey i) f64One) :
    ∃ s b1 b2 b3 b4, AddTransactions L (emptyBlockchain db) (scenarioCalls clock) = some s ∧
      chain s = [b1, b2, b3, b4] ∧
      (chain s).map (fun b => b.Transactions.length) = [3, 3, 3, 1] ∧
      (∀ b ∈ chain s, ∀ tx ∈ b.Transactions, tx.Valid = true) ∧
      b1.BlockNumber = 1 ∧ b1.PrevBlockHash = "0x000" := by
  obtain ⟨s, b1, b2, b3, b4, hs, hinv, hch, h1, h2, h3, h4, hval⟩ :=
    scenario_run L db clock hstore
  have hheap : s.heap = [b1, b2, b3, b4] := by rw [← chain_eq_heap s hinv.1]; exact hch
  have h0 : s.heap[0]? = some b1 := by rw [hheap]; rfl
  refine ⟨s, b1, b2, b3, b4, hs, hch, ?_, hval, (hinv.2.1.1 0 b1 h0).1, hinv.2.1.2.2.1 b1 h0⟩
  rw [hch]
  simp [h1, h2, h3, h4]

theorem c14_scenario_four_blocks_witness :
    (∀ i, 1 ≤ i → i ≤ 10 → StoredVersion sampleLibrary scenarioStore (simKey i) f64One) ∧
    ∃ s b1 b2 b3 b4,
      AddTransactions sampleLibrary (emptyBlockchain scenarioStore) (scenarioCalls (fun i => i)) =
        some s ∧
      chain s = [b1, b2, b3, b4] ∧
      (chain s).map (fun b => b.Transactions.length) = [3, 3, 3, 1] ∧
      (∀ b ∈ chain s, ∀ tx ∈ b.Transactions, tx.Valid = true) ∧
      b1.BlockNumber = 1 ∧ b1.PrevBlockHash = "0x000" :=
  ⟨scenarioStore_seeded,
    c14_scenario_four_blocks sampleLibrary scenarioStore (fun i => i) scenarioStore_seeded⟩

/-- C15 (as amended): in the scenario of ten single-entry calls keyed `SIM1` to
`SIM10`, after the tenth call returns blocks 1, 2 and 3 are committed and are
the blocks sent on `BlockChannel`, in that order; block 4 holds one
transaction, is still `Pending` with an empty `BlockHash` and has not been
sent. -/
theorem c15_fourth_block_stays_pending (L : Library) (db : Store) (clock : Nat → Time)
    (hstore : ∀ i, 1 ≤ i → i ≤ 10 → StoredVersion L db (simKey i) f64One) :
    ∃ s b1 b2 b3 b4, AddTransactions L (emptyBlockchain db) (scenarioCalls clock) = some s ∧
      chain s = [b1, b2, b3, b4] ∧
      b1.Status = BlockStatus.Committed ∧ b2.Status = BlockStatus.Committed ∧
      b3.Status = BlockStatus.Committed ∧
      b4.Status = BlockStatus.Pending ∧ b4.BlockHash = "" ∧ b4.Transactions.length = 1 ∧
      sentBlocks s = [b1, b2, b3] ∧
      (sentBlocks s).map (fun b => b.BlockNumber) = [1, 2, 3] := by
  obtain ⟨s, b1, b2, b3, b4, hs, hinv, hch, h1, h2, h3, h4, _⟩ :=
    scenario_run L db clock hstore
  have hheap : s.heap = [b1, b2, b3, b4] := by rw [← chain_eq_heap s hinv.1]; exact hch
  have hk1 := hinv.2.1.1 0 b1 (by rw [hheap]; rfl)
  have hk2 := hinv.2.1.1 1 b2 (by rw [hheap]; rfl)
  have hk3 := hinv.2.1.1 2 b3 (by rw [hheap]; rfl)
  have hk4 := hinv.2.1.1 3 b4 (by rw [hheap]; rfl)
  have hc1 : b1.Status = BlockStatus.Committed := hk1.2.2.1.2 (by rw [hk1.2.1, h1])
  have hc2 : b2.Status = BlockStatus.Committed := hk2.2.2.1.2 (by rw [hk2.2.1, h2])
  have hc3 : b3.Status = BlockStatus.Committed := hk3.2.2.1.2 (by rw [hk3.2.1, h3])
  have hp4 : b4.Status = BlockStatus.Pending :=
    status_pending_of_not_committed b4 (fun hc => by
      have := hk4.2.2.1.1 hc
      rw [hk4.2.1, h4] at this
      omega)
  have hsent : sentBlocks s = [b1, b2, b3] := by
    rw [sentBlocks_eq L s hinv, hch]
    simp [List.filter, isCommitted, hc1, hc2, hc3, hp4]
  refine ⟨s, b1, b2, b3, b4, hs, hch, hc1, hc2, hc3, hp4, hk4.2.2.2.1 hp4, h4, hsent, ?_⟩
  rw [hsent]
  simp [hk1.1, hk2.1, hk3.1]

theorem c15_fourth_block_stays_pending_witness :
    (∀ i, 1 ≤ i → i ≤ 10 → StoredVersion sampleLibrary scenarioStore (simKey i) f64One) ∧
    ∃ s b1 b2 b3 b4,
      AddTransactions sampleLibrary (emptyBlockchain scenarioStore) (scenarioCalls (fun i => i)) =
        some s ∧
      chain s = [b1, b2, b3, b4] ∧
      b1.Status = BlockStatus.Committed ∧ b2.Status = BlockStatus.Committed ∧
      b3.Status = BlockStatus.Committed ∧
      b4.Status = BlockStatus.Pending ∧ b4.BlockHash = "" ∧ b4.Transactions.length = 1 ∧
      sentBlocks s = [b1, b2, b3] ∧
      (sentBlocks s).map (fun b => b.BlockNumber) = [1, 2, 3] :=
  ⟨scenarioStore_seeded,
    c15_fourth_block_stays_pending sampleLibrary scenarioStore (fun i => i) scenarioStore_seeded⟩

/-- C15 (counterexample): in the scenario, run with the sample library over
`scenarioStore`, the fourth block is `Pending` with an empty `BlockHash` after
the tenth call, and only the pointers of blocks 1, 2 and 3 have been sent. -/
theorem c15_block_four_not_committed :
    (AddTransactions sampleLibrary (emptyBlockchain scenarioStore)
        (scenarioCalls (fun i => i))).map
      (fun s => ((chain s)[3]?.map (fun b => (b.BlockNumber, b.Status, b.BlockHash)),
        s.BlockChannel)) =
    some (some (4, BlockStatus.Pending, ""), [0, 1, 2]) := by
  decide

theorem strictMarshalBlock_read (x : Block) (h : strictLibrary.jsonMarshalBlock x ≠ []) :
    readPrevBlockHash (strictLibrary.jsonMarshalBlock x) = x.PrevBlockHash := by
  have hdef : strictLibrary.jsonMarshalBlock x = strictMarshalBlock x := rfl
  rw [hdef] at h ⊢
  unfold strictMarshalBlock at h ⊢
  by_cases hnan : (x.Transactions.any (fun t => t.Version.isNaN)) = true
  · rw [if_pos hnan] at h
    exact absurd rfl h
  · rw [if_neg hnan]
    unfold readPrevBlockHash verboseMarshalBlock
    simp only [List.cons_append, List.drop_succ_cons, List.drop_zero, List.headD_cons]
    rw [List.take_left' (by rw [List.length_map]; rfl), List.map_map]
    have hid : (Char.ofNat ∘ Char.toNat) = id := funext Char.ofNat_toNat
    rw [hid, List.map_id]

theorem AddTransaction_commit_content (L : Library) (bc bc2 : Blockchain) (now : Time)
    (txn : GoMap) (p : Nat) (hinv : Inv L bc) (h : AddTransaction L bc now txn = some bc2)
    (hsent : bc2.BlockChannel = bc.BlockChannel ++ [p]) :
    ∃ b1 : Block, b1.Status = BlockStatus.Pending ∧ b1.BlockHash = "" ∧
      bc2.heap[p]? = some { b1 with
        Status := BlockStatus.Committed
        BlockHash := CalculateBlockHash L { b1 with Status := BlockStatus.Committed } } := by
  obtain ⟨bc1, q, b0, b1, he, hl, hp, hpush, hcase⟩ := AddTransaction_some L bc bc2 now txn h
  obtain ⟨pre, b, hheap, hlatest, _, _, hch1, _, hlk, _, hpend, _, _⟩ :=
    ensureBlock_inv L bc bc1 now hinv he
  have hq : q = pre.length := by
    rw [hlatest] at hl
    exact (Option.some.inj hl).symm
  subst hq
  have hb0 : b0 = b := by
    rw [hheap, List.getElem?_concat_length] at hp
    exact (Option.some.inj hp).symm
  subst hb0
  obtain ⟨txs, _, hb1⟩ := pushLoop_some L txn bc1.db txn b0 b1 hpush
  have hok : BlockOK L pre.length b0 := Linked_last L pre b0 hlk
  rcases hcase with ⟨_, h2⟩ | ⟨_, h2⟩
  · have hpq : p = pre.length := by
      rw [h2] at hsent
      simp only [hch1] at hsent
      have := List.append_cancel_left hsent
      simpa using this.symm
    subst hpq
    refine ⟨b1, by rw [hb1]; exact hpend, by rw [hb1]; exact hok.2.2.2.1 hpend, ?_⟩
    rw [h2]
    simp [hheap, sealBlock, UpdateBlockStatus]
  · rw [h2] at hsent
    simp only [hch1] at hsent
    have hlen := congrArg List.length hsent
    simp at hlen

theorem strictState_reached :
    AddTransactions strictLibrary (emptyBlockchain seededStore) sampleCalls = some strictState :=
  eq_some_getD _ _ (by decide)

/-- C17 (as amended): in every state reached from the empty chain, a call that
commits a block stores in it `CalculateBlockHash` of the block as it is at that
moment, with status already `Committed`, the `BlockHash` field still empty and
every other field as it is; so the hash of every committed block of the chain
is the hex SHA-256 digest of the serialization of its number, transactions,
timestamp, status `Committed`, previous hash, empty hash and size.  The bytes
hashed are the output of `json.Marshal` with its error dropped: when the
`PrevBlockHash` field can be read back from every non-empty output, two blocks
that differ in `PrevBlockHash` are hashed over different serialized content
whenever the serialization of one of them is not empty. -/
theorem c17_hash_covers_content_at_commit (L : Library) (db : Store)
    (calls : List (Time × GoMap)) (bc : Blockchain) (readPrev : Bytes → String)
    (hread : ∀ x, L.jsonMarshalBlock x ≠ [] → readPrev (L.jsonMarshalBlock x) = x.PrevBlockHash)
    (hreach : AddTransactions L (emptyBlockchain db) calls = some bc) :
    (∀ (now : Time) (txn : GoMap) (bc2 : Blockchain) (p : Nat),
      AddTransaction L bc now txn = some bc2 → bc2.BlockChannel = bc.BlockChannel ++ [p] →
      ∃ b1 : Block, b1.Status = BlockStatus.Pending ∧ b1.BlockHash = "" ∧
        bc2.heap[p]? = some { b1 with
          Status := BlockStatus.Committed
          BlockHash := CalculateBlockHash L { b1 with Status := BlockStatus.Committed } }) ∧
    (∀ c ∈ chain bc, c.Status = BlockStatus.Committed →
      c.BlockHash = EncodeToString (L.sha256Sum (L.jsonMarshalBlock
        { BlockNumber := c.BlockNumber
          Transactions := c.Transactions
          Timestamp := c.Timestamp
          Status := BlockStatus.Committed
          PrevBlockHash := c.PrevBlockHash
          BlockHash := ""
          BlockSize := c.BlockSize }))) ∧
    (∀ b b2 : Block, b2.PrevBlockHash ≠ b.PrevBlockHash →
      L.jsonMarshalBlock (UpdateBlockStatus b BlockStatus.Committed) ≠ [] →
      L.jsonMarshalBlock (UpdateBlockStatus b2 BlockStatus.Committed) ≠
        L.jsonMarshalBlock (UpdateBlockStatus b BlockStatus.Committed)) := by
  have hinv := Inv_reached L db calls bc hreach
  refine ⟨?_, ?_, ?_⟩
  · intro now txn bc2 p h hsent
    exact AddTransaction_commit_content L bc bc2 now txn p hinv h hsent
  · intro c hc hcom
    rw [committed_hash L db calls bc hreach c hc hcom]
    have : ({ c with BlockHash := "" } : Block) =
        { BlockNumber := c.BlockNumber
          Transactions := c.Transactions
          Timestamp := c.Timestamp
          Status := BlockStatus.Committed
          PrevBlockHash := c.PrevBlockHash
          BlockHash := ""
          BlockSize := c.BlockSize } := by
      rw [← hcom]
    rw [this]
    rfl
  · intro b b2 hne hok heq
    have h1 := hread (UpdateBlockStatus b BlockStatus.Committed) hok
    have h2 := hread (UpdateBlockStatus b2 BlockStatus.Committed) (by rw [heq]; exact hok)
    rw [heq, h1] at h2
    exact hne h2.symm

theorem c17_hash_covers_content_at_commit_witness :
    (∀ x, strictLibrary.jsonMarshalBlock x ≠ [] →
      readPrevBlockHash (strictLibrary.jsonMarshalBlock x) = x.PrevBlockHash) ∧
    AddTransactions strictLibrary (emptyBlockchain seededStore) sampleCalls = some strictState ∧
    ((∀ (now : Time) (txn : GoMap) (bc2 : Blockchain) (p : Nat),
      AddTransaction strictLibrary strictState now txn = some bc2 →
      bc2.BlockChannel = strictState.BlockChannel ++ [p] →
      ∃ b1 : Block, b1.Status = BlockStatus.Pending ∧ b1.BlockHash = "" ∧
        bc2.heap[p]? = some { b1 with
          Status := BlockStatus.Committed
          BlockHash :=
            CalculateBlockHash strictLibrary { b1 with Status := BlockStatus.Committed } }) ∧
    (∀ c ∈ chain strictState, c.Status = BlockStatus.Committed →
      c.BlockHash = EncodeToString (strictLibrary.sha256Sum (strictLibrary.jsonMarshalBlock
        { BlockNumber := c.BlockNumber
          Transactions := c.Transactions
          Timestamp := c.Timestamp
          Status := BlockStatus.Committed
          PrevBlockHash := c.PrevBlockHash
          BlockHash := ""
          BlockSize := c.BlockSize }))) ∧
    (∀ b b2 : Block, b2.PrevBlockHash ≠ b.PrevBlockHash →
      strictLibrary.jsonMarshalBlock (UpdateBlockStatus b BlockStatus.Committed) ≠ [] →
      strictLibrary.jsonMarshalBlock (UpdateBlockStatus b2 BlockStatus.Committed) ≠
        strictLibrary.jsonMarshalBlock (UpdateBlockStatus b BlockStatus.Committed))) :=
  ⟨strictMarshalBlock_read, strictState_reached,
    c17_hash_covers_content_at_commit strictLibrary seededStore sampleCalls strictState
      readPrevBlockHash strictMarshalBlock_read strictState_reached⟩

/-- C17 (counterexample): after three calls that declare a NaN version, with a
library whose block serialization fails on NaN as `json.Marshal` does, the
first block is committed with `PrevBlockHash` `0x000`; the content hashed at
its commit and the same content with `PrevBlockHash` `0x001` both serialize to
zero bytes, and the stored hash is also the hash of the second. -/
theorem c17_failed_serialization_hides_prev_hash :
    (chain nanState).head?.map
      (fun b => (b.Status, b.PrevBlockHash,
        strictLibrary.jsonMarshalBlock { b with BlockHash := "" },
        strictLibrary.jsonMarshalBlock { b with BlockHash := "", PrevBlockHash := "0x001" },
        decide (b.BlockHash =
          CalculateBlockHash strictLibrary { b with BlockHash := "", PrevBlockHash := "0x001" }))) =
    some (BlockStatus.Committed, "0x000", [], [], true) := by
  decide

end GoBlockchain
